import Mathlib

/-!
Verification development for the alexcesaro/mail repository
(packages quotedprintable and gomail).

Bytes are modelled as natural numbers (< 256 in all reachable states);
byte strings as `List Nat`.  Go slices become Lean lists; the one place
where the Go code indexes past the length of its input slice is modelled
by an `Option` result (`none` = out-of-range access / runtime panic).

Character codes used throughout:
  9 = tab, 10 = LF, 13 = CR, 32 = space, 61 = equal sign, 63 = question
  mark, 95 = underscore.
-/

deriving instance DecidableEq for Except

set_option maxRecDepth 20000

namespace Mail

/-! # Definitions -/

/-- Go `isVchar`: RFC 5322 VCHAR, `'!' <= c && c <= '~'`. -/
def isVchar (c : Nat) : Bool := 33 ≤ c && c ≤ 126

/-- Go `isWSP`: space or horizontal tab. -/
def isWSP (c : Nat) : Bool := c == 32 || c == 9

/-- Go `isNewline`: `'\n'` or `'\r'`. -/
def isNewline (c : Nat) : Bool := c == 10 || c == 13

/-- Go `hextable = "0123456789ABCDEF"`. -/
def hextable : List Nat := [48, 49, 50, 51, 52, 53, 54, 55, 56, 57, 65, 66, 67, 68, 69, 70]

/-- Go `encodeByte`: `'='` followed by the two uppercase hex digits of `b`
(`hextable[b>>4]`, `hextable[b&0x0f]`). -/
def encodeByte (b : Nat) : List Nat :=
  [61, hextable.getD (b / 16) 0, hextable.getD (b % 16) 0]

/-- Go `isLastChar i src`: byte `i` is the last character of its line, i.e.
it is followed by nothing, by `'\n'`, or by `"\r\n"`.  Here `rest` is the
list of bytes following the byte in question. -/
def isLastChar (rest : List Nat) : Bool :=
  match rest with
  | [] => true
  | c :: rest2 =>
    if c = 10 then true
    else if c = 13 then rest2.headD 0 = 10
    else false

/-- The bytes `Encode` emits for one source byte `c` followed by `rest`
(one branch of the `switch` in Go `Encode`). -/
def encUnit (c : Nat) (rest : List Nat) : List Nat :=
  if c != 61 && (isVchar c || isNewline c) then [c]
  else if isWSP c then
    if isLastChar rest then encodeByte c else [c]
  else encodeByte c

/-- Go `Encode` (equivalently `EncodeToString`): per-byte quoted-printable
encoding.  Printable non-`'='` characters and newlines pass through;
whitespace is escaped only when it ends a line; everything else becomes
`=XX`. -/
def Encode : List Nat → List Nat
  | [] => []
  | c :: rest => encUnit c rest ++ Encode rest

/-- The list of per-byte encoded units whose concatenation is `Encode`. -/
def encUnits : List Nat → List (List Nat)
  | [] => []
  | c :: rest => encUnit c rest :: encUnits rest

/-- Error taxonomy of the decoder (Go returns `error` values; the four
constructors correspond to the four distinct error sites in
`quotedprintable.go`). -/
inductive DecErr where
  /-- Go `fromHex`: "invalid quoted-printable hex byte". -/
  | invalidHex (b : Nat)
  /-- Go `io.ErrUnexpectedEOF` for a truncated `=XX` escape. -/
  | unexpectedEnd
  /-- Go "invalid unescaped byte ... in quoted-printable body". -/
  | invalidByte (b : Nat)
  /-- Go "invalid bytes after =" (whitespace between `'='` and line end). -/
  | invalidAfterEq (bs : List Nat)
  deriving DecidableEq

/-- Go `fromHex`: uppercase hex digit to value. -/
def fromHex (b : Nat) : Except DecErr Nat :=
  if 48 ≤ b && b ≤ 57 then .ok (b - 48)
  else if 65 ≤ b && b ≤ 70 then .ok (b - 65 + 10)
  else .error (.invalidHex b)

/-- Go `readHexByte`: decode two hex digits, high nibble first. -/
def readHexByte (a b : Nat) : Except DecErr Nat := do
  let hb ← fromHex a
  let lb ← fromHex b
  return hb * 16 + lb

/-- Split off the first line of `src` exactly as Go `Decode` computes
`eol`/`eolLen` (via `bytes.IndexByte(src[i:], '\n')` and the check for a
preceding `'\r'`): the first component is the line content (up to but not
including the terminator), the second the terminator (`[10]`, `[13,10]`,
or `[]` when no `'\n'` remains), the third the rest of the input. -/
def splitLine (src : List Nat) : List Nat × List Nat × List Nat :=
  let before := src.takeWhile (fun b => b != 10)
  match src.dropWhile (fun b => b != 10) with
  | [] => (before, [], [])
  | _ :: rest =>
    if before.getLast? = some 13 then (before.dropLast, [13, 10], rest)
    else (before, [10], rest)

/-- Bytes trimmed at the end of a line by Go `Decode` (`'\n'`, `'\r'`,
`' '`, `'\t'`). -/
def trimmable (b : Nat) : Bool := b == 10 || b == 13 || b == 32 || b == 9

/-- Length of the trailing run of trimmable bytes of a line content
(the `trimLen` counting loop of Go `Decode` before the `'='` check). -/
def trimRun (content : List Nat) : Nat :=
  (content.reverse.takeWhile trimmable).length

/-- The per-line analysis of Go `Decode` (computation of `trimLen`,
`eolLen` adjustment and the deferred "invalid bytes after =" error).
Returns `(body, tail, keepTerm, deferredErr)` where `body` is the part of
the content decoded byte-by-byte, `tail` the bytes following `body` in the
original stream (used by escapes that read past the line end), `keepTerm`
whether the line terminator is emitted, and `deferredErr` the error
reported once the trimmed region is reached. -/
def analyzeLine (content term rest : List Nat) :
    List Nat × List Nat × Bool × Option DecErr :=
  let L := content.length
  let t := trimRun content
  if t = L then
    (([] : List Nat), content ++ term ++ rest, true, none)
  else if content.getD (L - t - 1) 0 = 61 then
    if 0 < t then
      (content.take (L - t - 1), content.drop (L - t - 1) ++ term ++ rest, false,
        some (.invalidAfterEq (content.drop (L - t) ++ term)))
    else
      (content.take (L - 1), content.drop (L - 1) ++ term ++ rest, false, none)
  else
    (content.take (L - t), content.drop (L - t) ++ term ++ rest, true, none)

/-- The pass-through byte set of the decoder `switch`:
`(c >= ' ' && c <= '~') || c == '\\n' || c == '\\r' || c == '\\t'`. -/
def isPassByte (c : Nat) : Bool := (32 ≤ c && c ≤ 126) || c == 10 || c == 13 || c == 9

/-- Decode the body of one line byte-by-byte (the `switch` of Go `Decode`).
`tail` holds the bytes that follow `body` in the stream: an `'='` escape
near the end of the body reads its hex digits from there, mirroring the
Go check `i+2 >= len(src)` against the whole input. -/
def decodeBody (body tail : List Nat) : Except DecErr (List Nat) :=
  match body with
  | [] => .ok []
  | c :: bs =>
    if c = 61 then
      match bs with
      | h1 :: h2 :: bs2 => do
          let b ← readHexByte h1 h2
          let r ← decodeBody bs2 tail
          return b :: r
      | _ =>
        -- fewer than two bytes left in the body: Go checks `i+2 >= len(src)`
        -- against the whole input, so the escape reads into `tail`
        let avail := bs ++ tail
        if avail.length < 2 then .error .unexpectedEnd
        else do
          let b ← readHexByte (avail.getD 0 0) (avail.getD 1 0)
          -- the escape consumed the remainder of the body, so decoding of
          -- the body finishes after this escape (`decodeBody [] _ = .ok []`)
          return [b]
    else if isPassByte c then do
      let r ← decodeBody bs tail
      return c :: r
    else .error (.invalidByte c)

/-- The per-line loop of Go `Decode`, with explicit fuel (one unit per
line; the fuel argument only serves to make the recursion structural, and
`src.length` units always suffice since each line consumes at least one
byte of input). -/
def decodeLinesGo : Nat → List Nat → Except DecErr (List Nat)
  | _, [] => .ok []
  | 0, _ => .ok []
  | fuel + 1, src =>
    let s := splitLine src
    let a := analyzeLine s.1 s.2.1 s.2.2
    match decodeBody a.1 a.2.1 with
    | .error e => .error e
    | .ok d =>
      match a.2.2.2 with
      | some e => .error e
      | none =>
        match s.2.1 with
        | [] => .ok d
        | _ =>
          match decodeLinesGo fuel s.2.2 with
          | .error e => .error e
          | .ok r => .ok (d ++ (if a.2.2.1 then s.2.1 else []) ++ r)

/-- Go `Decode` / `DecodeString`: quoted-printable decoding of a whole
byte string. -/
def DecodeString (src : List Nat) : Except DecErr (List Nat) :=
  decodeLinesGo src.length src

/-! ## Round trip of the quoted-printable codec -/

/-- Every carriage return is immediately followed by a line feed (the
wire-format condition under which the codec round-trips; a bare CR at a
line end is trimmed by the decoder, see the C1 counterexample). -/
def crSafe : List Nat → Bool
  | [] => true
  | c :: rest => (c ≠ 13 || rest.headD 0 = 10) && crSafe rest

/-- Go `qDecode`: decodes a Q-encoded header payload; `'_'` decodes to a
space, `=XX` escapes are decoded with `readHexByte`, and other bytes must
be visible ASCII, whitespace or newlines. -/
def qDecode : List Nat → Except DecErr (List Nat)
  | [] => .ok []
  | c :: r =>
    if c = 95 then (qDecode r).map (32 :: ·)
    else if c = 61 then
      match r with
      | h1 :: h2 :: r2 =>
        match readHexByte h1 h2 with
        | .ok b => (qDecode r2).map (b :: ·)
        | .error e => .error e
      | _ => .error .unexpectedEnd
    else if isVchar c || c == 32 || c == 10 || c == 13 || c == 9 then
      (qDecode r).map (c :: ·)
    else .error (.invalidByte c)

/-- Uppercase hex digit (the only digits Go `fromHex` accepts). -/
def isUpperHex (b : Nat) : Bool := (48 ≤ b && b ≤ 57) || (65 ≤ b && b ≤ 70)

/-! ## The RFC 2047 header encoder (`HeaderEncoder`, charset UTF-8) -/

/-- Go `maxEncodedWordLen = 75` (RFC 2047, section 2). -/
def maxEncodedWordLen : Nat := 75

/-- Go `needsEncoding`: some byte is neither a VCHAR nor whitespace. -/
def needsEncoding (s : List Nat) : Bool :=
  s.any fun b => !isVchar b && !isWSP b

/-- A UTF-8 continuation byte (`10xxxxxx`), i.e. `!utf8.RuneStart(b)`. -/
def contByte (b : Nat) : Bool := 128 ≤ b && b < 192

/-- The Q encoding writes `b` as a single byte: a space (as `'_'`) or a
visible character other than `'='`, `'?'`, `'_'` (`encodeWord`'s
`encLen, runeSize = 1, 1` test). -/
def qSafe (b : Nat) : Bool := b == 32 || (isVchar b && b != 61 && b != 63 && b != 95)

/-- Go `writeQ`: `' '` becomes `'_'`, other unreserved visible characters
pass through, everything else is written as an `=XX` escape. -/
def writeQ (b : Nat) : List Nat :=
  if b == 32 then [95]
  else if isVchar b && b != 61 && b != 63 && b != 95 then [b]
  else encodeByte b

/-- The groups `encodeWord`'s Q loop steps through: a Q-safe byte is its
own group (`runeSize = 1`); any other byte takes all following UTF-8
continuation bytes (`getRuneSize`).  The fuel (`s.length` suffices) only
makes the recursion structural. -/
def qChunksGo : Nat → List Nat → List (List Nat)
  | _, [] => []
  | 0, _ => []
  | fuel + 1, b :: rest =>
    if qSafe b then [b] :: qChunksGo fuel rest
    else (b :: rest.takeWhile contByte) :: qChunksGo fuel (rest.dropWhile contByte)

def qChunks (s : List Nat) : List (List Nat) := qChunksGo s.length s

/-- `encLen` as computed by `encodeWord`'s Q branch for one group. -/
def chunkEncLen (ch : List Nat) : Nat :=
  if qSafe (ch.headD 0) then 1 else 3 * ch.length

/-- `writeQString` over one group. -/
def chunkRender (ch : List Nat) : List Nat := ch.flatMap writeQ

/-- `writeQString` over a list of groups. -/
def chunksRender (g : List (List Nat)) : List Nat := (g.map chunkRender).flatten

/-- The word-splitting loop of `encodeWord` (Q branch with `splitWords`):
`n` is the byte count of the current encoded word so far (`openWord`
returns `10` for `"=?UTF-8?Q?"`), `cur` the payload accumulated for the
current word.  A group whose encoded length would push `n` past
`maxEncodedWordLen - 2` closes the current word (`splitWord`) first. -/
def qSplitGo : List (List Nat) → Nat → List Nat → List (List Nat)
  | [], _, cur => [cur]
  | ch :: chs, n, cur =>
    if n + chunkEncLen ch > maxEncodedWordLen - 2 then
      cur :: qSplitGo chs (10 + chunkEncLen ch) (chunkRender ch)
    else qSplitGo chs (n + chunkEncLen ch) (cur ++ chunkRender ch)

/-- The payloads of the encoded words `StdHeaderEncoder.encodeWord`
produces for `s`. -/
def qWords (s : List Nat) : List (List Nat) := qSplitGo (qChunks s) 10 []

/-- `"=?UTF-8?Q?"` (`openWord`). -/
def qOpen : List Nat := [61, 63, 85, 84, 70, 45, 56, 63, 81, 63]

/-- `"=?UTF-8?B?"` (`openWord`). -/
def bOpen : List Nat := [61, 63, 85, 84, 70, 45, 56, 63, 66, 63]

/-- A Q encoded word with payload `p` (`openWord` … `closeWord`). -/
def renderWord (p : List Nat) : List Nat := qOpen ++ p ++ [63, 61]

/-- A B encoded word with payload `p`. -/
def renderWordB (p : List Nat) : List Nat := bOpen ++ p ++ [63, 61]

/-- Adjacent encoded words are folded with `"\r\n "` (`splitWord`). -/
def joinWords : List (List Nat) → List Nat
  | [] => []
  | [w] => w
  | w :: ws => w ++ [13, 10, 32] ++ joinWords ws

/-- `StdHeaderEncoder.EncodeHeader` (charset UTF-8, Q encoding): the
input is returned unchanged unless some byte needs encoding. -/
def EncodeHeader (s : List Nat) : List Nat :=
  if needsEncoding s then joinWords ((qWords s).map renderWord) else s

/-- `base64.StdEncoding.EncodedLen`. -/
def encodedLen (n : Nat) : Nat := (n + 2) / 3 * 4

/-- The standard base64 alphabet, by sextet value. -/
def b64Char (n : Nat) : Nat :=
  if n < 26 then 65 + n
  else if n < 52 then 97 + (n - 26)
  else if n < 62 then 48 + (n - 52)
  else if n = 62 then 43
  else 47

/-- `base64.StdEncoding.EncodeToString` on bytes, with `'='` padding. -/
def b64Encode : List Nat → List Nat
  | a :: b :: c :: rest =>
    b64Char (a / 4 % 64) :: b64Char (a % 4 * 16 + b / 16 % 16) ::
      b64Char (b % 16 * 4 + c / 64 % 4) :: b64Char (c % 64) :: b64Encode rest
  | [a, b] => [b64Char (a / 4 % 64), b64Char (a % 4 * 16 + b / 16 % 16), b64Char (b % 16 * 4), 61]
  | [a] => [b64Char (a / 4 % 64), b64Char (a % 4 * 16), 61, 61]
  | [] => []

/-- The rune groups `encodeWord`'s B branch steps through
(`getRuneSize` only; no Q-safe shortcut). -/
def bChunksGo : Nat → List Nat → List (List Nat)
  | _, [] => []
  | 0, _ => []
  | fuel + 1, b :: rest =>
    (b :: rest.takeWhile contByte) :: bChunksGo fuel (rest.dropWhile contByte)

def bChunks (s : List Nat) : List (List Nat) := bChunksGo s.length s

/-- The byte runs the B branch base64-encodes into separate words:
`n` counts the bytes gathered since the last flush (`last`), and a group
that would push the encoded length past
`maxLen = maxEncodedWordLen - 10 - 2` flushes the run first. -/
def bRuns : List (List Nat) → Nat → List Nat → List (List Nat)
  | [], _, cur => [cur]
  | ch :: chs, n, cur =>
    if encodedLen (n + ch.length) ≤ maxEncodedWordLen - 10 - 2 then
      bRuns chs (n + ch.length) (cur ++ ch)
    else cur :: bRuns chs ch.length ch

/-- The payloads of the encoded words the B variant produces: a single
word when the whole input fits, the split runs otherwise. -/
def bWords (s : List Nat) : List (List Nat) :=
  if encodedLen s.length ≤ maxEncodedWordLen - 10 - 2 then [b64Encode s]
  else (bRuns (bChunks s) 0 []).map b64Encode

/-- `HeaderEncoder.EncodeHeader` for charset UTF-8 and B encoding. -/
def EncodeHeaderB (s : List Nat) : List Nat :=
  if needsEncoding s then joinWords ((bWords s).map renderWordB) else s

/-! ## The RFC 2047 header decoder (`DecodeHeader`) -/

/-- A character of the regexp class `[\w\-]` (`\w` is `[0-9A-Za-z_]`). -/
def wordChar (b : Nat) : Bool :=
  (48 ≤ b && b ≤ 57) || (65 ≤ b && b ≤ 90) || (97 ≤ b && b ≤ 122) || b == 95 || b == 45

/-- The anchored regexp `rfc2047 = ^=\?[\w\-]+\?[bBqQ]\?[^?]+\?=`
(`rfc2047.FindString`), returning the charset, encoding letter and
payload of the matched encoded word (or `none` when the header does not
start with an encoded word). -/
def findWord (h : List Nat) : Option (List Nat × Nat × List Nat) :=
  match h with
  | b1 :: b2 :: rest =>
    if b1 = 61 ∧ b2 = 63 then
      let cs := rest.takeWhile wordChar
      if cs = [] then none
      else
        match rest.dropWhile wordChar with
        | c1 :: e :: c2 :: rest2 =>
          if c1 = 63 ∧ c2 = 63 ∧ (e = 66 ∨ e = 98 ∨ e = 81 ∨ e = 113) then
            let payload := rest2.takeWhile (fun b => b != 63)
            if payload = [] then none
            else
              match rest2.dropWhile (fun b => b != 63) with
              | d1 :: d2 :: _ => if d1 = 63 ∧ d2 = 61 then some (cs, e, payload) else none
              | _ => none
          else none
        | _ => none
    else none
  | _ => none

/-- The bytes of the encoded word matched by `findWord`
(`len(word)` in the Go code). -/
def wordBytes (cs : List Nat) (e : Nat) (payload : List Nat) : List Nat :=
  61 :: 63 :: cs ++ 63 :: e :: 63 :: payload ++ [63, 61]

/-- Value of a byte in the standard base64 alphabet. -/
def b64Val (c : Nat) : Option Nat :=
  if 65 ≤ c ∧ c ≤ 90 then some (c - 65)
  else if 97 ≤ c ∧ c ≤ 122 then some (c - 97 + 26)
  else if 48 ≤ c ∧ c ≤ 57 then some (c - 48 + 52)
  else if c = 43 then some 62
  else if c = 47 then some 63
  else none

/-- `base64.StdEncoding.DecodeString` on newline-free input: quartets of
alphabet characters, with `'='` padding allowed only in the final
quartet; `none` models `CorruptInputError`. -/
def b64DecodeGo : List Nat → Option (List Nat)
  | [] => some []
  | a :: b :: c :: d :: rest =>
    match b64Val a, b64Val b with
    | some va, some vb =>
      if c = 61 ∧ d = 61 ∧ rest = [] then some [va * 4 + vb / 16]
      else
        match b64Val c with
        | some vc =>
          if d = 61 ∧ rest = [] then some [va * 4 + vb / 16, vb % 16 * 16 + vc / 4]
          else
            match b64Val d with
            | some vd =>
              (b64DecodeGo rest).map
                fun r => (va * 4 + vb / 16) :: (vb % 16 * 16 + vc / 4) :: (vc % 4 * 64 + vd) :: r
            | none => none
        | none => none
    | _, _ => none
  | _ => none

/-- `base64.StdEncoding.DecodeString` (CR and LF bytes are ignored by
Go's base64 decoder). -/
def b64Decode (s : List Nat) : Option (List Nat) :=
  b64DecodeGo (s.filter fun b => !(b == 13 || b == 10))

/-- The `switch strings.ToUpper(enc)` of `decodeWord`: `'B'`/`'b'`
decodes the payload as base64, `'Q'`/`'q'` with `qDecode`; `none` is a
decoding error (the word is then kept verbatim by `DecodeHeader`). -/
def decodeOneWord (e : Nat) (payload : List Nat) : Option (List Nat) :=
  if e = 66 ∨ e = 98 then b64Decode payload
  else if e = 81 ∨ e = 113 then
    match qDecode payload with
    | .ok d => some d
    | .error _ => none
  else none

/-- A byte skipped between adjacent encoded words (`isWSP || isNewline`). -/
def hdrWs (b : Nat) : Bool := isWSP b || isNewline b

/-- Number of leading whitespace/newline bytes (the `j` loop). -/
def wsLen (h : List Nat) : Nat := (h.takeWhile hdrWs).length

/-- The inner loop of `DecodeHeader`: decode the word at the front of
`header`, then keep consuming whitespace-separated encoded words.
Returns the decoded text, the remaining header and the charset seen so
far (`[]` when none yet); the error is the multiple-charsets failure.
The fuel only makes the recursion structural (each round consumes a
word of at least 12 bytes, so `header.length` units suffice). -/
def decodeWordsGo : Nat → List Nat × Nat × List Nat → List Nat → List Nat →
    Except Unit (List Nat × List Nat × List Nat)
  | 0, _, header, charset => .ok ([], header, charset)
  | fuel + 1, (cs, e, payload), header, charset =>
    let w := wordBytes cs e payload
    match decodeOneWord e payload with
    | none => .ok (w, header.drop w.length, charset)
    | some dec =>
      if charset ≠ [] ∧ charset ≠ cs then .error ()
      else
        let charset2 := if charset = [] then cs else charset
        let h2 := header.drop w.length
        let j := wsLen h2
        if j = 0 then .ok (dec, h2, charset2)
        else
          match findWord (h2.drop j) with
          | none => .ok (dec, h2, charset2)
          | some (cs2, e2, p2) =>
            (decodeWordsGo fuel (cs2, e2, p2) (h2.drop j) charset2).map
              fun r => (dec ++ r.1, r.2.1, r.2.2)

/-- The outer loop of `DecodeHeader`: copy everything up to the next
`'='`; if an encoded word starts there, run the inner loop, otherwise
emit the `'='` verbatim and continue.  The fuel only makes the recursion
structural (each round consumes at least one byte). -/
def decodeHeaderGo : Nat → List Nat → List Nat → Except Unit (List Nat × List Nat)
  | 0, header, charset => .ok (header, charset)
  | fuel + 1, header, charset =>
    let pre := header.takeWhile fun b => b != 61
    match header.dropWhile fun b => b != 61 with
    | [] => .ok (header, charset)
    | rest =>
      match findWord rest with
      | none =>
        (decodeHeaderGo fuel (rest.drop 1) charset).map fun r => (pre ++ 61 :: r.1, r.2)
      | some (cs, e, payload) =>
        match decodeWordsGo rest.length (cs, e, payload) rest charset with
        | .error u => .error u
        | .ok (txt, h2, charset2) =>
          (decodeHeaderGo fuel h2 charset2).map fun r => (pre ++ txt ++ r.1, r.2)

/-- Go `DecodeHeader`: returns the decoded text and the charset of the
encoded words (`[]` when the header contains none); the only error is
the multiple-charsets one. -/
def DecodeHeader (h : List Nat) : Except Unit (List Nat × List Nat) :=
  decodeHeaderGo h.length h []

/-- The charset name `"UTF-8"`. -/
def utf8Name : List Nat := [85, 84, 70, 45, 56]

/-! ## Line-bounded transcoding writers (gomail `message.go`) -/

/-- Go `maxLineLen = 78` (RFC 5322, 2.1.1). -/
def maxLineLen : Nat := 78

/-- Index of the first `'\n'` (Go `bytes.IndexAny(·, "\n")`). -/
def findLF : List Nat → Option Nat
  | [] => none
  | c :: rest => if c = 10 then some 0 else (findLF rest).map (· + 1)

/-- Go `qpLineWriter.Write`, one call, starting from column `lineLen`.
Returns `(bytes written downstream, reported n, new lineLen)`, or `none`
when the code indexes its input slice out of range: Go evaluates
`p[:maxLineLen-w.lineLen+2]`, whose upper bound exceeds `len(p)` whenever
`len(p)` is `maxLineLen-lineLen` or `maxLineLen-lineLen+1` (a runtime
panic unless the slice happens to have spare capacity).  The fuel
argument only makes the recursion structural; `2*p.length+1` units always
suffice. -/
def qpWriteGo : Nat → Nat → List Nat → Option (List Nat × Nat × Nat)
  | _, lineLen, [] => some ([], 0, lineLen)
  | 0, _, _ => none
  | fuel + 1, lineLen, p =>
    if p.length < maxLineLen - lineLen then
      some (p, p.length, lineLen + p.length)
    else if p.length < maxLineLen - lineLen + 2 then
      none
    else
      let m := maxLineLen - lineLen
      let hard : Option Nat :=
        match findLF (p.take (m + 2)) with
        | some i => if i ≠ m + 1 ∨ p.getD (i - 1) 0 = 13 then some i else none
        | none => none
      match hard with
      | some i =>
        (qpWriteGo fuel 0 (p.drop (i + 1))).map fun r =>
          (p.take (i + 1) ++ r.1, (i + 1) + r.2.1, r.2.2)
      | none =>
        let toWrite :=
          if 2 ≤ m ∧ p.getD (m - 2) 0 = 61 then m - 2
          else if p.getD (m - 1) 0 = 61 then m - 1
          else m
        (qpWriteGo fuel 0 (p.drop toWrite)).map fun r =>
          (p.take toWrite ++ [61, 13, 10] ++ r.1, toWrite + r.2.1, r.2.2)

/-- `qpLineWriter.Write` with sufficient fuel. -/
def qpWrite (lineLen : Nat) (p : List Nat) : Option (List Nat × Nat × Nat) :=
  qpWriteGo (2 * p.length + 1) lineLen p

/-- Go `base64LineWriter.Write`, one call, starting from column `lineLen`.
Returns `(bytes written downstream, reported n, new lineLen)`.  The fuel
argument only makes the recursion structural; the `fuel = 0` fallback is
never reached with `2*p.length+1` units. -/
def b64WriteGo : Nat → Nat → List Nat → Option (List Nat × Nat × Nat)
  | 0, _, _ => none
  | fuel + 1, lineLen, p =>
    if p.length + lineLen > maxLineLen then
      (b64WriteGo fuel 0 (p.drop (maxLineLen - lineLen))).map fun r =>
        (p.take (maxLineLen - lineLen) ++ [13, 10] ++ r.1, (maxLineLen - lineLen) + r.2.1, r.2.2)
    else some (p, p.length, lineLen + p.length)

/-- `base64LineWriter.Write` with sufficient fuel (`base64LineWriter.Write`
itself never fails; the `Option` only reflects fuel exhaustion, which
`2*p.length+2` units rule out). -/
def b64Write (lineLen : Nat) (p : List Nat) : Option (List Nat × Nat × Nat) :=
  b64WriteGo (2 * p.length + 2) lineLen p

-- A quoted-printable body flows through `quotedprintable.NewEncoder`
-- (which escapes it with `Encode`) into a fresh `qpLineWriter`.
/-- The body path of gomail `messageWriter.writeBody` for quoted-printable:
`Encode` then `qpLineWriter.Write` from a fresh writer. -/
def qpBodyPipeline (body : List Nat) : Option (List Nat) :=
  (qpWrite 0 (Encode body)).map (·.1)

/-! ## Line structure of the writers' output -/

/-- Split a byte stream at each LF (the segments between newline
markers; a segment's trailing CR, when present, belongs to a CRLF
marker). -/
def lfSplit : List Nat → List (List Nat)
  | [] => [[]]
  | c :: rest =>
    if c = 10 then [] :: lfSplit rest
    else
      match lfSplit rest with
      | s :: ss => (c :: s) :: ss
      | [] => [[c]]

/-- Visible length of a line segment: its trailing CR (part of a CRLF
marker) is not visible. -/
def visLen (seg : List Nat) : Nat :=
  if seg.getLast? = some 13 then seg.length - 1 else seg.length

/-- All completed lines (every segment except the final, unterminated
one) have visible length at most `bound`; the first segment starts at
column `start`. -/
def linesOK (bound start : Nat) : List (List Nat) → Bool
  | [] => true
  | [_] => true
  | s :: rest => decide (start + visLen s ≤ bound) && linesOK bound 0 rest

/-- The output column after writing the segments, starting at column
`start` (counting every byte since the last LF, as the writers do). -/
def colAfter (start : Nat) : List (List Nat) → Nat
  | [] => start
  | [s] => start + s.length
  | _ :: rest => colAfter 0 rest

/-! ## The MIME multipart assembler (gomail `Message.Export`) -/

/-- gomail encodings (constants `QuotedPrintable`, `Base64`). -/
inductive Encoding where
  | quotedPrintable
  | base64
  deriving DecidableEq

/-- A gomail body part (`type part struct`). -/
structure GoPart where
  contentType : List Nat
  body : List Nat
  deriving DecidableEq

/-- A gomail attachment (`type attachment struct`). -/
structure GoAttachment where
  name : List Nat
  content : List Nat
  deriving DecidableEq

/-- The fields of gomail `Message` that `Export` inspects. -/
structure Message where
  parts : List GoPart
  attachments : List GoAttachment
  encoding : Encoding
  deriving DecidableEq

/-- Go `Message.isMixed`:
`(len(msg.parts) > 0 && len(msg.attachments) > 0) || len(msg.attachments) > 1`. -/
def Message.isMixed (m : Message) : Bool :=
  (decide (0 < m.parts.length) && decide (0 < m.attachments.length)) ||
    decide (1 < m.attachments.length)

/-- Go `Message.isAlternative`: `len(msg.parts) > 1`. -/
def Message.isAlternative (m : Message) : Bool :=
  decide (1 < m.parts.length)

/-- The byte string "mixed". -/
def mixedKind : List Nat := [109, 105, 120, 101, 100]

/-- The byte string "alternative". -/
def altKind : List Nat := [97, 108, 116, 101, 114, 110, 97, 116, 105, 118, 101]

/-- Observable writer operations performed by `Message.Export`, in order. -/
inductive ExportEv where
  | openMultipart (kind : List Nat)
  | writePart (contentType : List Nat) (enc : Encoding)
  | writeAttachment (name : List Nat) (enc : Encoding)
  | closeMultipart
  deriving DecidableEq

/-- The sequence of writer operations `Message.Export` performs, following
its control flow: open mixed if `isMixed`, open alternative if
`isAlternative`, write each part (with the message encoding as
`Content-Transfer-Encoding`), close alternative, write each attachment
base64-encoded, close mixed. -/
def Message.exportTrace (m : Message) : List ExportEv :=
  (if m.isMixed then [.openMultipart mixedKind] else []) ++
  (if m.isAlternative then [.openMultipart altKind] else []) ++
  (m.parts.map fun p => .writePart p.contentType
    (if m.encoding = .base64 then .base64 else .quotedPrintable)) ++
  (if m.isAlternative then [.closeMultipart] else []) ++
  (m.attachments.map fun a => .writeAttachment a.name .base64) ++
  (if m.isMixed then [.closeMultipart] else [])

/-- Multipart-open events (decided before any part is emitted). -/
def ExportEv.isOpen : ExportEv → Bool
  | .openMultipart _ => true
  | _ => false

/-- A message with one plain-text part and two attachments (the scenario
of §8 of the spec). -/
def demoMessage : Message :=
  { parts := [{ contentType := [116, 101, 120, 116], body := [104, 105] }],
    attachments := [{ name := [97], content := [1] }, { name := [98], content := [2] }],
    encoding := .quotedPrintable }

/-- Split a byte stream at each CRLF marker. -/
def crlfSplit : List Nat → List (List Nat)
  | [] => [[]]
  | 13 :: 10 :: rest => [] :: crlfSplit rest
  | c :: rest =>
    match crlfSplit rest with
    | s :: ss => (c :: s) :: ss
    | [] => [[c]]

/-! ## The streaming encoder's short-write recovery (Go `encoder.Write`) -/

/-- The `nn` recovery loop of Go `encoder.Write`: given the prefix of the
encoded buffer the downstream writer accepted before failing, count how
many input bytes were fully flushed (an `'='` with fewer than two
following accepted bytes stops the count). -/
def countConsumed : List Nat → Nat
  | [] => 0
  | c :: rest =>
    if c = 61 then
      match rest with
      | _ :: _ :: rest2 => 1 + countConsumed rest2
      | _ => 0
    else 1 + countConsumed rest

/-- Number of whole encoded units fitting in a `k`-byte prefix of the
encoded stream (the specification of what `encoder.Write` must report). -/
def unitsWithin : List (List Nat) → Nat → Nat
  | [], _ => 0
  | u :: us, k => if u.length ≤ k then unitsWithin us (k - u.length) + 1 else 0

/-! # Theorems -/

theorem Encode_eq_join_encUnits (src : List Nat) : Encode src = (encUnits src).flatten := by
  induction src with
  | nil => rfl
  | cons c rest ih => simp [Encode, encUnits, ih]

section ListHelpers

variable {α : Type} {p : α → Bool}

theorem takeWhile_append_all {a : List α} (b : List α) (h : ∀ x ∈ a, p x) :
    (a ++ b).takeWhile p = a ++ b.takeWhile p := by
  induction a with
  | nil => rfl
  | cons c cs ih =>
    have hc : p c := h c (by simp)
    simp [List.takeWhile_cons, hc, ih (fun x hx => h x (by simp [hx]))]

theorem dropWhile_append_all {a : List α} (b : List α) (h : ∀ x ∈ a, p x) :
    (a ++ b).dropWhile p = b.dropWhile p := by
  induction a with
  | nil => rfl
  | cons c cs ih =>
    have hc : p c := h c (by simp)
    simp only [List.cons_append, List.dropWhile_cons, hc]
    exact ih (fun x hx => h x (by simp [hx]))

theorem pred_of_mem_takeWhile {a : List α} {x : α} (h : x ∈ a.takeWhile p) : p x := by
  induction a with
  | nil => simp [List.takeWhile] at h
  | cons c cs ih =>
    rw [List.takeWhile_cons] at h
    by_cases hc : p c
    · simp [hc] at h
      rcases h with h | h
      · rwa [h]
      · exact ih h
    · simp [hc] at h

theorem dropWhile_head_false {a : List α} {x : α} {xs : List α}
    (h : a.dropWhile p = x :: xs) : p x = false := by
  induction a with
  | nil => simp [List.dropWhile] at h
  | cons c cs ih =>
    rw [List.dropWhile_cons] at h
    by_cases hc : p c
    · simp [hc] at h; exact ih h
    · simp [hc] at h
      rw [← h.1]
      simpa using hc

end ListHelpers

theorem splitLine_join (src : List Nat) :
    (splitLine src).1 ++ (splitLine src).2.1 ++ (splitLine src).2.2 = src := by
  have h := List.takeWhile_append_dropWhile (p := fun b => b != 10) (l := src)
  cases hd : src.dropWhile (fun b => b != 10) with
  | nil =>
    have ht : src.takeWhile (fun b => b != 10) = src := by
      have h2 := h
      rw [hd, List.append_nil] at h2
      exact h2
    have heq : splitLine src = (src.takeWhile (fun b => b != 10), [], []) := by
      unfold splitLine
      rw [hd]
    rw [heq, ht]
    simp
  | cons d rest =>
    have hdlf : d = 10 := by simpa using dropWhile_head_false hd
    have h' : src.takeWhile (fun b => b != 10) ++ d :: rest = src := by rw [← hd]; exact h
    by_cases hl : (src.takeWhile (fun b => b != 10)).getLast? = some 13
    · have hsplit := List.dropLast_append_getLast? _ hl
      have heq : splitLine src = ((src.takeWhile (fun b => b != 10)).dropLast, [13, 10], rest) := by
        simp [splitLine, hd, hl]
      rw [heq]
      calc (src.takeWhile (fun b => b != 10)).dropLast ++ [13, 10] ++ rest
          = ((src.takeWhile (fun b => b != 10)).dropLast ++ [13]) ++ 10 :: rest := by simp
        _ = src.takeWhile (fun b => b != 10) ++ d :: rest := by rw [hsplit, hdlf]
        _ = src := h'
    · have heq : splitLine src = (src.takeWhile (fun b => b != 10), [10], rest) := by
        simp [splitLine, hd, hl]
      rw [heq]
      calc src.takeWhile (fun b => b != 10) ++ [10] ++ rest
          = src.takeWhile (fun b => b != 10) ++ d :: rest := by rw [hdlf]; simp
        _ = src := h'

theorem splitLine_rest_lt (src : List Nat) (h : (splitLine src).2.1 ≠ []) :
    (splitLine src).2.2.length < src.length := by
  have hj := splitLine_join src
  have hlen : (splitLine src).1.length + ((splitLine src).2.1.length +
      (splitLine src).2.2.length) = src.length := by
    conv_rhs => rw [← hj]
    simp
  have h1 : 0 < (splitLine src).2.1.length := List.length_pos.mpr h
  omega

theorem splitLine_term_nil (src : List Nat) (h : (splitLine src).2.1 = []) :
    (splitLine src).2.2 = [] := by
  unfold splitLine
  unfold splitLine at h
  cases hd : src.dropWhile (fun b => b != 10) with
  | nil => simp
  | cons d rest =>
    rw [hd] at h
    by_cases hl : (src.takeWhile (fun b => b != 10)).getLast? = some 13 <;>
      simp [hl] at h

theorem splitLine_term_cases (src : List Nat) :
    (splitLine src).2.1 = [] ∨ (splitLine src).2.1 = [10] ∨ (splitLine src).2.1 = [13, 10] := by
  unfold splitLine
  cases hd : src.dropWhile (fun b => b != 10) with
  | nil => simp
  | cons d rest =>
    by_cases hl : (src.takeWhile (fun b => b != 10)).getLast? = some 13 <;> simp [hl]

theorem splitLine_content_lfFree (src : List Nat) : 10 ∉ (splitLine src).1 := by
  intro hmem
  have hp : (10 : Nat) ∈ src.takeWhile (fun b => b != 10) := by
    unfold splitLine at hmem
    cases hd : src.dropWhile (fun b => b != 10) with
    | nil => rw [hd] at hmem; exact hmem
    | cons d rest =>
      rw [hd] at hmem
      by_cases hl : (src.takeWhile (fun b => b != 10)).getLast? = some 13
      · simp only [hl, if_pos] at hmem
        exact List.dropLast_subset _ hmem
      · simp only [hl, if_neg, if_false] at hmem
        exact hmem
  have := pred_of_mem_takeWhile hp
  simp at this

-- Sanity checks against the behaviour of the Go implementation.
-- "Caf=C3=A9" decodes to the UTF-8 bytes of "Café".
example : DecodeString [67, 97, 102, 61, 67, 51, 61, 65, 57] =
    .ok [67, 97, 102, 195, 169] := by decide

-- "=ZZ" is a bad hex digit.
example : DecodeString [61, 90, 90] = .error (.invalidHex 90) := by decide

-- "=Z" is a truncated escape.
example : DecodeString [61, 90] = .error .unexpectedEnd := by decide

-- A bare trailing "=" is a soft line break, not an error.
example : DecodeString [61] = .ok [] := by decide

-- "A=" keeps the "A" and drops the soft break.
example : DecodeString [65, 61] = .ok [65] := by decide

-- "= " is "invalid bytes after =".
example : DecodeString [61, 32] = .error (.invalidAfterEq [32]) := by decide

-- A bare trailing "\r" is trimmed.
example : DecodeString [13] = .ok [] := by decide

-- "x \nb" encodes with the trailing space escaped; round trip.
example : Encode [120, 32, 10, 98] = [120, 61, 50, 48, 10, 98] := by decide

example : DecodeString (Encode [120, 32, 10, 98]) = .ok [120, 32, 10, 98] := by decide

-- "a\r\nb" passes through.
example : DecodeString [97, 13, 10, 98] = .ok [97, 13, 10, 98] := by decide

-- soft break "=\r\n" in the middle of a line.
example : DecodeString [97, 61, 13, 10, 98] = .ok [97, 98] := by decide

/-! ## Round trip of the quoted-printable codec -/

theorem crSafe_cons {c : Nat} {rest : List Nat} (h : crSafe (c :: rest) = true) :
    crSafe rest = true := by
  rw [crSafe, Bool.and_eq_true] at h
  exact h.2

theorem crSafe_suffix {a b : List Nat} (h : crSafe (a ++ b) = true) : crSafe b = true := by
  induction a with
  | nil => exact h
  | cons c a ih => exact ih (crSafe_cons h)

theorem crSafe_cr_next {u w : List Nat} (h : crSafe (u ++ 13 :: w) = true) :
    ∃ w2, w = 10 :: w2 := by
  induction u with
  | nil =>
    rw [List.nil_append, crSafe, Bool.and_eq_true] at h
    have h1 := h.1
    simp only [Bool.or_eq_true, decide_eq_true_eq] at h1
    rcases h1 with h1 | h1
    · exact absurd rfl h1
    · cases w with
      | nil => simp at h1
      | cons d w2 =>
        simp only [List.headD_cons] at h1
        exact ⟨w2, by rw [h1]⟩
  | cons c u ih => exact ih (crSafe_cons h)

theorem hexDigit_facts : ∀ i < 16, trimmable (hextable.getD i 0) = false ∧
    hextable.getD i 0 ≠ 61 ∧ hextable.getD i 0 ≠ 10 ∧ hextable.getD i 0 ≠ 13 ∧
    isPassByte (hextable.getD i 0) = true := by decide

theorem readHexByte_encodeByte (c : Nat) (hc : c < 256) :
    readHexByte (hextable.getD (c / 16) 0) (hextable.getD (c % 16) 0) = .ok c := by
  revert hc
  revert c
  decide

/-- Branch analysis of `encUnit`, given that `c` is neither LF nor CR:
the unit is either the literal byte (a pass-through byte other than
`'='`), or the 3-byte escape of `c`. -/
theorem encUnit_branches (c : Nat) (rest : List Nat) (h10 : c ≠ 10) (h13 : c ≠ 13) :
    (encUnit c rest = [c] ∧ c ≠ 61 ∧ isPassByte c = true) ∨
    encUnit c rest = encodeByte c := by
  unfold encUnit
  by_cases h1 : (c != 61 && (isVchar c || isNewline c)) = true
  · left
    have h1c := h1
    simp only [Bool.and_eq_true, bne_iff_ne, Bool.or_eq_true, isVchar, isNewline,
      decide_eq_true_eq, beq_iff_eq] at h1c
    obtain ⟨hne, hv⟩ := h1c
    rcases hv with ⟨hv1, hv2⟩ | (hv | hv)
    · exact ⟨by simp [h1], hne, by simp [isPassByte]; omega⟩
    · exact absurd hv h10
    · exact absurd hv h13
  · by_cases h2 : isWSP c = true
    · by_cases h3 : isLastChar rest = true
      · right; simp [h1, h2, h3]
      · left
        have h2c := h2
        simp only [isWSP, Bool.or_eq_true, beq_iff_eq] at h2c
        refine ⟨by simp [h1, h2, h3], by omega, ?_⟩
        simp only [isPassByte, Bool.or_eq_true, Bool.and_eq_true, decide_eq_true_eq, beq_iff_eq]
        omega
    · right; simp [h1, h2]

theorem encUnit_ne_nil (c : Nat) (rest : List Nat) : encUnit c rest ≠ [] := by
  unfold encUnit
  by_cases h1 : (c != 61 && (isVchar c || isNewline c)) = true
  · simp [h1]
  · by_cases h2 : isWSP c = true
    · by_cases h3 : isLastChar rest = true <;> simp [h1, h2, h3, encodeByte]
    · simp [h1, h2, encodeByte]

theorem Encode_ne_nil {l : List Nat} (h : l ≠ []) : Encode l ≠ [] := by
  cases l with
  | nil => exact absurd rfl h
  | cons c rest =>
    rw [Encode]
    intro hc
    exact encUnit_ne_nil c rest (List.append_eq_nil.mp hc).1

theorem mem_encUnit {z c : Nat} {rest : List Nat} (hc : c < 256) (hz : z ∈ encUnit c rest) :
    z = c ∨ z = 61 ∨ ∃ i < 16, z = hextable.getD i 0 := by
  unfold encUnit at hz
  have hdiv : c / 16 < 16 := by omega
  have hmod : c % 16 < 16 := by omega
  by_cases h1 : (c != 61 && (isVchar c || isNewline c)) = true
  · rw [if_pos h1] at hz
    simp at hz
    exact Or.inl hz
  · rw [if_neg h1] at hz
    by_cases h2 : isWSP c = true
    · rw [if_pos h2] at hz
      by_cases h3 : isLastChar rest = true
      · rw [if_pos h3, encodeByte] at hz
        simp only [List.mem_cons, List.not_mem_nil, or_false] at hz
        rcases hz with hz | hz | hz
        · exact Or.inr (Or.inl hz)
        · exact Or.inr (Or.inr ⟨c / 16, hdiv, hz⟩)
        · exact Or.inr (Or.inr ⟨c % 16, hmod, hz⟩)
      · rw [if_neg h3] at hz
        simp at hz
        exact Or.inl hz
    · rw [if_neg h2, encodeByte] at hz
      simp only [List.mem_cons, List.not_mem_nil, or_false] at hz
      rcases hz with hz | hz | hz
      · exact Or.inr (Or.inl hz)
      · exact Or.inr (Or.inr ⟨c / 16, hdiv, hz⟩)
      · exact Or.inr (Or.inr ⟨c % 16, hmod, hz⟩)

theorem Encode_no_lf_cr {l : List Nat} (hb : ∀ b ∈ l, b < 256) (h10 : 10 ∉ l) (h13 : 13 ∉ l) :
    10 ∉ Encode l ∧ 13 ∉ Encode l := by
  induction l with
  | nil => simp [Encode]
  | cons c rest ih =>
    have ihr := ih (fun b hbm => hb b (by simp [hbm])) (fun hm => h10 (by simp [hm]))
      (fun hm => h13 (by simp [hm]))
    rw [Encode]
    constructor
    · intro hm
      rcases List.mem_append.mp hm with hm | hm
      · rcases mem_encUnit (hb c (by simp)) hm with hz | hz | ⟨i, hi, hz⟩
        · exact h10 (by simp [← hz])
        · omega
        · exact (hexDigit_facts i hi).2.2.1 hz.symm
      · exact ihr.1 hm
    · intro hm
      rcases List.mem_append.mp hm with hm | hm
      · rcases mem_encUnit (hb c (by simp)) hm with hz | hz | ⟨i, hi, hz⟩
        · exact h13 (by simp [← hz])
        · omega
        · exact (hexDigit_facts i hi).2.2.2.1 hz.symm
      · exact ihr.2 hm

theorem isLastChar_append_term {l t y : List Nat} (h10 : 10 ∉ l) (h13 : 13 ∉ l)
    (ht : t = [10] ∨ t = [13, 10]) :
    isLastChar (l ++ t ++ y) = isLastChar l := by
  cases l with
  | nil => rcases ht with rfl | rfl <;> rfl
  | cons d l2 =>
    have hd10 : d ≠ 10 := fun h => h10 (by simp [h])
    have hd13 : d ≠ 13 := fun h => h13 (by simp [h])
    have hfal : ∀ r2 : List Nat, isLastChar (d :: r2) = false := by
      intro r2
      rw [isLastChar, if_neg hd10, if_neg hd13]
    show isLastChar (d :: (l2 ++ t ++ y)) = isLastChar (d :: l2)
    rw [hfal, hfal]

theorem encUnit_append_term {c : Nat} {l t y : List Nat} (h10 : 10 ∉ l) (h13 : 13 ∉ l)
    (ht : t = [10] ∨ t = [13, 10]) :
    encUnit c (l ++ t ++ y) = encUnit c l := by
  unfold encUnit
  rw [isLastChar_append_term h10 h13 ht]

theorem Encode_append_term {l t y : List Nat} (h10 : 10 ∉ l) (h13 : 13 ∉ l)
    (ht : t = [10] ∨ t = [13, 10]) :
    Encode (l ++ t ++ y) = Encode l ++ t ++ Encode y := by
  induction l with
  | nil =>
    rcases ht with rfl | rfl
    · show Encode (10 :: y) = [] ++ [10] ++ Encode y
      rw [Encode]
      rfl
    · show Encode (13 :: 10 :: y) = [] ++ [13, 10] ++ Encode y
      rw [Encode, Encode]
      rfl
  | cons c l2 ih =>
    have h10b : 10 ∉ l2 := fun h => h10 (by simp [h])
    have h13b : 13 ∉ l2 := fun h => h13 (by simp [h])
    show Encode (c :: (l2 ++ t ++ y)) = Encode (c :: l2) ++ t ++ Encode y
    rw [Encode, Encode, encUnit_append_term h10b h13b ht, ih h10b h13b]
    simp

/-- The literal pass-through case of `encUnit` when it ends a line
(`rest = []`): the byte must be a visible character. -/
theorem encUnit_nil_branches (c : Nat) (h10 : c ≠ 10) (h13 : c ≠ 13) :
    (encUnit c [] = [c] ∧ c ≠ 61 ∧ 33 ≤ c ∧ c ≤ 126) ∨ encUnit c [] = encodeByte c := by
  unfold encUnit
  by_cases h1 : (c != 61 && (isVchar c || isNewline c)) = true
  · left
    have h1c := h1
    simp only [Bool.and_eq_true, bne_iff_ne, Bool.or_eq_true, isVchar, isNewline,
      decide_eq_true_eq, beq_iff_eq] at h1c
    obtain ⟨hne, hv⟩ := h1c
    rcases hv with ⟨hv1, hv2⟩ | (hv | hv)
    · exact ⟨by simp [h1], hne, hv1, hv2⟩
    · exact absurd hv h10
    · exact absurd hv h13
  · by_cases h2 : isWSP c = true
    · right; simp [h1, h2, isLastChar]
    · right; simp [h1, h2]

theorem Encode_getLast_good {l : List Nat} (hb : ∀ b ∈ l, b < 256) (h10 : 10 ∉ l)
    (h13 : 13 ∉ l) (hne : l ≠ []) :
    ∃ z, (Encode l).getLast? = some z ∧ trimmable z = false ∧ z ≠ 61 := by
  induction l with
  | nil => exact absurd rfl hne
  | cons c l2 ih =>
    have hc : c < 256 := hb c (by simp)
    have hc10 : c ≠ 10 := fun h => h10 (by simp [h])
    have hc13 : c ≠ 13 := fun h => h13 (by simp [h])
    by_cases hl2 : l2 = []
    · subst hl2
      rw [Encode, Encode, List.append_nil]
      rcases encUnit_nil_branches c hc10 hc13 with ⟨heq, h61, hlo, hhi⟩ | heq
      · refine ⟨c, by simp [heq], ?_, h61⟩
        simp only [trimmable, Bool.or_eq_false_iff, beq_eq_false_iff_ne]
        omega
      · rw [heq, encodeByte]
        have hmod : c % 16 < 16 := by omega
        exact ⟨hextable.getD (c % 16) 0, by simp, (hexDigit_facts _ hmod).1,
          (hexDigit_facts _ hmod).2.1⟩
    · obtain ⟨z, hz, htr, h61⟩ := ih (fun b hm => hb b (by simp [hm]))
        (fun hm => h10 (by simp [hm])) (fun hm => h13 (by simp [hm])) hl2
      refine ⟨z, ?_, htr, h61⟩
      rw [Encode, List.getLast?_append_of_ne_nil _ (Encode_ne_nil hl2)]
      exact hz

theorem trimRun_eq_zero {l : List Nat} {z : Nat} (hz : l.getLast? = some z)
    (ht : trimmable z = false) : trimRun l = 0 := by
  unfold trimRun
  have hh : l.reverse.head? = some z := by rw [List.head?_reverse, hz]
  cases hr : l.reverse with
  | nil => simp
  | cons a as =>
    rw [hr] at hh
    simp only [List.head?_cons, Option.some.injEq] at hh
    rw [List.takeWhile_cons, hh, ht]
    rfl

theorem analyzeLine_encoded (l t r : List Nat) (hb : ∀ b ∈ l, b < 256) (h10 : 10 ∉ l)
    (h13 : 13 ∉ l) :
    analyzeLine (Encode l) t r = (Encode l, t ++ r, true, none) := by
  by_cases hl : l = []
  · subst hl
    show analyzeLine [] t r = ([], t ++ r, true, none)
    unfold analyzeLine trimRun
    simp
  · obtain ⟨z, hz, htr, hz61⟩ := Encode_getLast_good hb h10 h13 hl
    have htrim : trimRun (Encode l) = 0 := trimRun_eq_zero hz htr
    have hEne : Encode l ≠ [] := Encode_ne_nil hl
    have hlen : 0 < (Encode l).length := List.length_pos.mpr hEne
    have hgetd : (Encode l).getD ((Encode l).length - 0 - 1) 0 = z := by
      rw [List.getLast?_eq_getElem?] at hz
      simp only [Nat.sub_zero]
      rw [List.getD_eq_getElem?_getD, hz]
      rfl
    unfold analyzeLine
    rw [htrim, if_neg (by omega), if_neg (by rw [hgetd]; exact hz61)]
    simp

theorem decodeBody_escape (g1 g2 : Nat) (bs2 tail : List Nat) :
    decodeBody (61 :: g1 :: g2 :: bs2) tail =
      match readHexByte g1 g2 with
      | .error e => .error e
      | .ok b =>
        match decodeBody bs2 tail with
        | .error e => .error e
        | .ok r => .ok (b :: r) := by
  rw [decodeBody.eq_def]
  simp only [if_pos rfl]
  cases readHexByte g1 g2 <;> cases decodeBody bs2 tail <;> rfl

theorem decodeBody_pass {c : Nat} (bs tail : List Nat) (h61 : c ≠ 61)
    (hp : isPassByte c = true) :
    decodeBody (c :: bs) tail = (decodeBody bs tail).map (c :: ·) := by
  rw [decodeBody.eq_def]
  simp only [if_neg h61, hp, if_pos]
  cases decodeBody bs tail <;> rfl

theorem decodeBody_Encode (l : List Nat) (tail : List Nat) (hb : ∀ b ∈ l, b < 256)
    (h10 : 10 ∉ l) (h13 : 13 ∉ l) :
    decodeBody (Encode l) tail = .ok l := by
  induction l with
  | nil => rfl
  | cons c l2 ih =>
    have hc : c < 256 := hb c (by simp)
    have hc10 : c ≠ 10 := fun h => h10 (by simp [h])
    have hc13 : c ≠ 13 := fun h => h13 (by simp [h])
    have ihl := ih (fun b hm => hb b (by simp [hm])) (fun hm => h10 (by simp [hm]))
      (fun hm => h13 (by simp [hm]))
    rw [Encode]
    rcases encUnit_branches c l2 hc10 hc13 with ⟨heq, h61, hpass⟩ | heq
    · rw [heq]
      show decodeBody (c :: Encode l2) tail = .ok (c :: l2)
      rw [decodeBody_pass _ _ h61 hpass, ihl]
      rfl
    · rw [heq, encodeByte]
      show decodeBody (61 :: _ :: _ :: Encode l2) tail = .ok (c :: l2)
      rw [decodeBody_escape, readHexByte_encodeByte c hc, ihl]

theorem splitLine_no_lf (a : List Nat) (h10 : 10 ∉ a) : splitLine a = (a, [], []) := by
  have hall : ∀ x ∈ a, (fun b => b != 10) x = true := by
    intro x hx
    simp only [bne_iff_ne, ne_eq]
    intro h
    exact h10 (h ▸ hx)
  have hd : a.dropWhile (fun b => b != 10) = [] := List.dropWhile_eq_nil_iff.mpr hall
  have htk : a.takeWhile (fun b => b != 10) = a := List.takeWhile_eq_self_iff.mpr hall
  unfold splitLine
  rw [hd, htk]

theorem splitLine_encodedLine (a t y : List Nat) (h10 : 10 ∉ a) (h13 : 13 ∉ a)
    (ht : t = [10] ∨ t = [13, 10]) :
    splitLine (a ++ t ++ y) = (a, t, y) := by
  have hall : ∀ x ∈ a, (fun b => b != 10) x = true := by
    intro x hx
    simp only [bne_iff_ne, ne_eq]
    intro h
    exact h10 (h ▸ hx)
  have hlast : a.getLast? ≠ some 13 := by
    intro h
    have hmem : (13 : Nat) ∈ a := by
      have : ∃ h2, (13 : Nat) = a.getLast h2 := List.mem_getLast?_eq_getLast (by rw [h]; rfl)
      rcases this with ⟨h2, heq⟩
      rw [heq]
      exact List.getLast_mem h2
    exact h13 hmem
  rcases ht with rfl | rfl
  · have h1 : (a ++ [10] ++ y).takeWhile (fun b => b != 10) = a := by
      rw [List.append_assoc, takeWhile_append_all _ hall]
      simp [List.takeWhile_cons]
    have h2 : (a ++ [10] ++ y).dropWhile (fun b => b != 10) = 10 :: y := by
      rw [List.append_assoc, dropWhile_append_all _ hall]
      simp [List.dropWhile_cons]
    simp only [splitLine, h1, h2]
    rw [if_neg hlast]
  · have h1 : (a ++ [13, 10] ++ y).takeWhile (fun b => b != 10) = a ++ [13] := by
      rw [List.append_assoc, takeWhile_append_all _ hall]
      simp [List.takeWhile_cons]
    have h2 : (a ++ [13, 10] ++ y).dropWhile (fun b => b != 10) = 10 :: y := by
      rw [List.append_assoc, dropWhile_append_all _ hall]
      simp [List.dropWhile_cons]
    simp only [splitLine, h1, h2]
    rw [if_pos (by simp), List.dropLast_concat]

theorem splitLine_term10_last (x : List Nat) (h : (splitLine x).2.1 = [10]) :
    (splitLine x).1.getLast? ≠ some 13 := by
  unfold splitLine at h ⊢
  cases hd : x.dropWhile (fun b => b != 10) with
  | nil => rw [hd] at h; simp at h
  | cons d rest =>
    rw [hd] at h
    by_cases hl : (x.takeWhile (fun b => b != 10)).getLast? = some 13
    · simp [hl] at h
    · simp [hl]

theorem splitLine_content_crFree (x : List Nat) (hcr : crSafe x = true) :
    13 ∉ (splitLine x).1 := by
  intro hmem
  obtain ⟨u, v, huv⟩ := List.append_of_mem hmem
  have hx2 : x = u ++ 13 :: (v ++ ((splitLine x).2.1 ++ (splitLine x).2.2)) := by
    conv_lhs => rw [← splitLine_join x]
    rw [huv]
    simp
  obtain ⟨w2, hw2⟩ := crSafe_cr_next (u := u)
    (w := v ++ ((splitLine x).2.1 ++ (splitLine x).2.2)) (by rw [← hx2]; exact hcr)
  cases v with
  | cons d v2 =>
    have hd : d = 10 := by
      have := congrArg List.head? hw2
      simpa using this
    exact splitLine_content_lfFree x (by rw [huv, hd]; simp)
  | nil =>
    simp only [List.nil_append] at hw2
    rcases splitLine_term_cases x with ht | ht | ht
    · rw [ht, splitLine_term_nil x ht] at hw2
      simp at hw2
    · have hlast : (splitLine x).1.getLast? = some 13 := by
        rw [huv]
        simp
      exact splitLine_term10_last x ht hlast
    · rw [ht] at hw2
      simp at hw2

theorem splitLine_rest_crSafe (x : List Nat) (hcr : crSafe x = true) :
    crSafe (splitLine x).2.2 = true := by
  refine crSafe_suffix (a := (splitLine x).1 ++ (splitLine x).2.1) ?_
  rw [List.append_assoc] at *
  have hj := splitLine_join x
  rw [List.append_assoc] at hj
  rw [hj]
  exact hcr

theorem Encode_length_ge (x : List Nat) : x.length ≤ (Encode x).length := by
  induction x with
  | nil => simp [Encode]
  | cons c rest ih =>
    rw [Encode, List.length_append]
    have hpos : 0 < (encUnit c rest).length := List.length_pos.mpr (encUnit_ne_nil c rest)
    simp only [List.length_cons]
    omega

theorem decodeLinesGo_succ_cons (fuel : Nat) (c : Nat) (cs : List Nat) :
    decodeLinesGo (fuel + 1) (c :: cs) =
      (let s := splitLine (c :: cs)
       let a := analyzeLine s.1 s.2.1 s.2.2
       match decodeBody a.1 a.2.1 with
       | .error e => .error e
       | .ok d =>
         match a.2.2.2 with
         | some e => .error e
         | none =>
           match s.2.1 with
           | [] => .ok d
           | _ =>
             match decodeLinesGo fuel s.2.2 with
             | .error e => .error e
             | .ok r => .ok (d ++ (if a.2.2.1 then s.2.1 else []) ++ r)) := rfl

/-- Decoding one terminated line of encoder output followed by more
encoded data recovers the line, the terminator, and the decode of the
rest. -/
theorem decodeLinesGo_encodedStep (f : Nat) (l t r : List Nat)
    (hb : ∀ b ∈ l, b < 256) (h10 : 10 ∉ l) (h13 : 13 ∉ l)
    (ht : t = [10] ∨ t = [13, 10])
    (hrec : decodeLinesGo f (Encode r) = .ok r) :
    decodeLinesGo (f + 1) (Encode (l ++ t ++ r)) = .ok (l ++ t ++ r) := by
  have hEx : Encode (l ++ t ++ r) = Encode l ++ t ++ Encode r := Encode_append_term h10 h13 ht
  have hE10 := (Encode_no_lf_cr hb h10 h13).1
  have hE13 := (Encode_no_lf_cr hb h10 h13).2
  have hsplit : splitLine (Encode l ++ t ++ Encode r) = (Encode l, t, Encode r) :=
    splitLine_encodedLine _ _ _ hE10 hE13 ht
  have hana : analyzeLine (Encode l) t (Encode r) = (Encode l, t ++ Encode r, true, none) :=
    analyzeLine_encoded l t (Encode r) hb h10 h13
  have hbody : decodeBody (Encode l) (t ++ Encode r) = .ok l :=
    decodeBody_Encode l _ hb h10 h13
  rw [hEx]
  obtain ⟨e, es, hE⟩ : ∃ e es, Encode l ++ t ++ Encode r = e :: es := by
    rcases ht with rfl | rfl
    · cases hc : Encode l ++ [10] ++ Encode r with
      | nil => rw [List.append_assoc] at hc; simp at hc
      | cons e es => exact ⟨e, es, rfl⟩
    · cases hc : Encode l ++ [13, 10] ++ Encode r with
      | nil => rw [List.append_assoc] at hc; simp at hc
      | cons e es => exact ⟨e, es, rfl⟩
  rw [hE, decodeLinesGo_succ_cons, ← hE]
  simp only [hsplit, hana, hbody]
  rcases ht with rfl | rfl <;> simp [hrec]

/-- Decoding the encoding of an unterminated final line recovers it. -/
theorem decodeLinesGo_lastLine (f : Nat) (l : List Nat)
    (hb : ∀ b ∈ l, b < 256) (h10 : 10 ∉ l) (h13 : 13 ∉ l) :
    decodeLinesGo (f + 1) (Encode l) = .ok l := by
  by_cases hl : l = []
  · subst hl; rfl
  · obtain ⟨e, es, hE⟩ : ∃ e es, Encode l = e :: es := by
      cases hc : Encode l with
      | nil => exact absurd hc (Encode_ne_nil hl)
      | cons e es => exact ⟨e, es, rfl⟩
    have hsplit : splitLine (Encode l) = (Encode l, [], []) :=
      splitLine_no_lf _ (Encode_no_lf_cr hb h10 h13).1
    have hana := analyzeLine_encoded l [] [] hb h10 h13
    have hbody : decodeBody (Encode l) [] = .ok l := decodeBody_Encode l [] hb h10 h13
    rw [hE, decodeLinesGo_succ_cons, ← hE]
    simp only [hsplit, List.append_nil] at hana ⊢
    simp only [hana, hbody]

theorem decode_Encode_aux (fuel : Nat) :
    ∀ x : List Nat, x.length ≤ fuel → (∀ b ∈ x, b < 256) → crSafe x = true →
      decodeLinesGo fuel (Encode x) = .ok x := by
  induction fuel with
  | zero =>
    intro x hlen _ _
    have hx : x = [] := List.length_eq_zero.mp (Nat.le_zero.mp hlen)
    subst hx
    rfl
  | succ f ih =>
    intro x hlen hb hcr
    by_cases hx : x = []
    · subst hx; rfl
    · obtain ⟨l, t, r, hsl⟩ : ∃ l t r, splitLine x = (l, t, r) := ⟨_, _, _, rfl⟩
      have hjoin : l ++ t ++ r = x := by
        have := splitLine_join x
        rwa [hsl] at this
      have h10l : 10 ∉ l := by
        have := splitLine_content_lfFree x
        rwa [hsl] at this
      have h13l : 13 ∉ l := by
        have := splitLine_content_crFree x hcr
        rwa [hsl] at this
      have hbl : ∀ b ∈ l, b < 256 := fun b hm => hb b (by rw [← hjoin]; simp [hm])
      have hterm3 := splitLine_term_cases x
      rw [hsl] at hterm3
      dsimp only at hterm3
      rcases hterm3 with ht | ht | ht
      · have hr : r = [] := by
          have := splitLine_term_nil x (by rw [hsl]; exact ht)
          rwa [hsl] at this
        have hxl : x = l := by rw [← hjoin, ht, hr]; simp
        rw [hxl]
        exact decodeLinesGo_lastLine f l hbl h10l h13l
      all_goals {
        first
        | have hterm : t = [10] ∨ t = [13, 10] := Or.inl ht
        | have hterm : t = [10] ∨ t = [13, 10] := Or.inr ht
        have hbr : ∀ b ∈ r, b < 256 := fun b hm => hb b (by rw [← hjoin]; simp [hm])
        have hcrr : crSafe r = true := by
          have := splitLine_rest_crSafe x hcr
          rwa [hsl] at this
        have hrl : r.length ≤ f := by
          have hlx := congrArg List.length hjoin
          simp only [List.length_append] at hlx
          have ht1 : 1 ≤ t.length := by rcases hterm with rfl | rfl <;> simp
          omega
        have hrec := ih r hrl hbr hcrr
        rw [← hjoin]
        exact decodeLinesGo_encodedStep f l t r hbl h10l h13l hterm hrec
      }

/-! ## Line structure of the writers' output -/

theorem lfSplit_ne_nil (p : List Nat) : lfSplit p ≠ [] := by
  cases p with
  | nil => simp [lfSplit]
  | cons c rest =>
    rw [lfSplit.eq_def]
    by_cases hc : c = 10
    · simp [hc]
    · simp only [if_neg hc]
      cases lfSplit rest <;> simp

theorem lfSplit_seg_le (p : List Nat) : ∀ s ∈ lfSplit p, s.length ≤ p.length := by
  induction p with
  | nil => simp [lfSplit]
  | cons c rest ih =>
    intro s hs
    rw [lfSplit.eq_def] at hs
    by_cases hc : c = 10
    · simp only [if_pos hc] at hs
      rcases List.mem_cons.mp hs with rfl | hs
      · simp
      · calc s.length ≤ rest.length := ih s hs
          _ ≤ (c :: rest).length := by simp
    · simp only [if_neg hc] at hs
      cases hsp : lfSplit rest with
      | nil => exact absurd hsp (lfSplit_ne_nil rest)
      | cons e es =>
        rw [hsp] at hs
        rcases List.mem_cons.mp hs with rfl | hs
        · have he : e.length ≤ rest.length := ih e (by rw [hsp]; simp)
          simp only [List.length_cons]
          omega
        · calc s.length ≤ rest.length := ih s (by rw [hsp]; simp [hs])
            _ ≤ (c :: rest).length := by simp

theorem lfSplit_append_lf {a : List Nat} (b : List Nat) (h10 : 10 ∉ a) :
    lfSplit (a ++ 10 :: b) = a :: lfSplit b := by
  induction a with
  | nil => simp [lfSplit]
  | cons c a2 ih =>
    have hc : c ≠ 10 := fun h => h10 (by simp [h])
    have ih2 := ih (fun h => h10 (by simp [h]))
    show lfSplit (c :: (a2 ++ 10 :: b)) = (c :: a2) :: lfSplit b
    rw [lfSplit.eq_def]
    simp only [if_neg hc, ih2]

theorem linesOK_cons {bound start : Nat} {w : List Nat} {segs : List (List Nat)}
    (h : segs ≠ []) :
    linesOK bound start (w :: segs) =
      (decide (start + visLen w ≤ bound) && linesOK bound 0 segs) := by
  cases segs with
  | nil => exact absurd rfl h
  | cons e es => rfl

theorem colAfter_cons {start : Nat} {w : List Nat} {segs : List (List Nat)}
    (h : segs ≠ []) : colAfter start (w :: segs) = colAfter 0 segs := by
  cases segs with
  | nil => exact absurd rfl h
  | cons e es => rfl

theorem visLen_le (s : List Nat) : visLen s ≤ s.length := by
  unfold visLen
  by_cases h : s.getLast? = some 13 <;> simp [h]

theorem visLen_concat13 (a : List Nat) : visLen (a ++ [13]) = a.length := by
  unfold visLen
  rw [if_pos (by simp)]
  simp

theorem linesOK_of_bounds {bound start : Nat} {segs : List (List Nat)}
    (h : ∀ s ∈ segs, start + s.length ≤ bound) : linesOK bound start segs = true := by
  induction segs generalizing start with
  | nil => rfl
  | cons s rest ih =>
    cases rest with
    | nil => rfl
    | cons e es =>
      rw [linesOK_cons (by simp)]
      refine Bool.and_eq_true_iff.mpr ⟨?_, ?_⟩
      · have := h s (by simp)
        have := visLen_le s
        simp only [decide_eq_true_eq]
        omega
      · refine ih ?_
        intro v hv
        have := h v (by simp [hv])
        omega

theorem colAfter_le (start : Nat) (p : List Nat) :
    colAfter start (lfSplit p) ≤ start + p.length := by
  induction p generalizing start with
  | nil => simp [lfSplit, colAfter]
  | cons c rest ih =>
    rw [lfSplit.eq_def]
    by_cases hc : c = 10
    · simp only [if_pos hc]
      rw [colAfter_cons (lfSplit_ne_nil rest)]
      have := ih 0
      simp only [List.length_cons]
      omega
    · simp only [if_neg hc]
      cases hsp : lfSplit rest with
      | nil => exact absurd hsp (lfSplit_ne_nil rest)
      | cons e es =>
        cases es with
        | nil =>
          have := ih start
          rw [hsp] at this
          simp only [colAfter, List.length_cons] at this ⊢
          omega
        | cons e2 es2 =>
          have hih := ih start
          rw [hsp, colAfter_cons (by simp : (e2 :: es2 : List (List Nat)) ≠ [])] at hih
          rw [colAfter_cons (by simp : (e2 :: es2 : List (List Nat)) ≠ [])]
          simp only [List.length_cons]
          omega

theorem findLF_none {q : List Nat} (h : findLF q = none) : 10 ∉ q := by
  induction q with
  | nil => simp
  | cons c rest ih =>
    rw [findLF] at h
    by_cases hc : c = 10
    · simp [hc] at h
    · rw [if_neg hc] at h
      cases hf : findLF rest with
      | some j => rw [hf] at h; simp at h
      | none =>
        intro hm
        rcases List.mem_cons.mp hm with hm | hm
        · exact hc hm.symm
        · exact ih hf hm

theorem findLF_spec {q : List Nat} {i : Nat} (h : findLF q = some i) :
    i < q.length ∧ q.getD i 0 = 10 ∧ 10 ∉ q.take i := by
  induction q generalizing i with
  | nil => simp [findLF] at h
  | cons c rest ih =>
    rw [findLF] at h
    by_cases hc : c = 10
    · rw [if_pos hc] at h
      simp only [Option.some.injEq] at h
      subst h
      simp [hc]
    · rw [if_neg hc] at h
      cases hf : findLF rest with
      | none => rw [hf] at h; simp at h
      | some j =>
        rw [hf] at h
        simp only [Option.map_some', Option.some.injEq] at h
        subst h
        obtain ⟨h1, h2, h3⟩ := ih hf
        refine ⟨by simpa using h1, by simpa using h2, ?_⟩
        intro hm
        rw [List.take_succ_cons] at hm
        rcases List.mem_cons.mp hm with hm | hm
        · exact hc hm.symm
        · exact h3 hm

theorem qpWriteGo_succ_ne (fuel lineLen : Nat) (p : List Nat) (hp : p ≠ []) :
    qpWriteGo (fuel + 1) lineLen p =
      (if p.length < maxLineLen - lineLen then
        some (p, p.length, lineLen + p.length)
      else if p.length < maxLineLen - lineLen + 2 then
        none
      else
        let m := maxLineLen - lineLen
        let hard : Option Nat :=
          match findLF (p.take (m + 2)) with
          | some i => if i ≠ m + 1 ∨ p.getD (i - 1) 0 = 13 then some i else none
          | none => none
        match hard with
        | some i =>
          (qpWriteGo fuel 0 (p.drop (i + 1))).map fun r =>
            (p.take (i + 1) ++ r.1, (i + 1) + r.2.1, r.2.2)
        | none =>
          let toWrite :=
            if 2 ≤ m ∧ p.getD (m - 2) 0 = 61 then m - 2
            else if p.getD (m - 1) 0 = 61 then m - 1
            else m
          (qpWriteGo fuel 0 (p.drop toWrite)).map fun r =>
            (p.take toWrite ++ [61, 13, 10] ++ r.1, toWrite + r.2.1, r.2.2)) := by
  cases p with
  | nil => exact absurd rfl hp
  | cons c cs => rfl

/-- The soft-break branch of `qpLineWriter.Write` keeps all lines within
the bound: it writes at most `maxLineLen - lineLen` payload bytes plus a
visible `'='`. -/
theorem qpWriteGo_soft_ok {f lineLen toWrite : Nat} {p out : List Nat} {n ll2 : Nat}
    (hll : lineLen ≤ 77) (htw : toWrite ≤ maxLineLen - lineLen)
    (hnolf : 10 ∉ p.take (maxLineLen - lineLen))
    (ihf : ∀ lineLen2 p2 out2 n2 ll3, lineLen2 ≤ 77 →
      qpWriteGo f lineLen2 p2 = some (out2, n2, ll3) →
      linesOK 79 lineLen2 (lfSplit out2) = true ∧
      colAfter lineLen2 (lfSplit out2) ≤ ll3 ∧ ll3 ≤ 77)
    (h : ((qpWriteGo f 0 (p.drop toWrite)).map fun r =>
        (p.take toWrite ++ [61, 13, 10] ++ r.1, toWrite + r.2.1, r.2.2)) = some (out, n, ll2)) :
    linesOK 79 lineLen (lfSplit out) = true ∧
    colAfter lineLen (lfSplit out) ≤ ll2 ∧ ll2 ≤ 77 := by
  cases hrec : qpWriteGo f 0 (p.drop toWrite) with
  | none => rw [hrec] at h; simp at h
  | some r =>
    obtain ⟨out2, n2, ll3⟩ := r
    rw [hrec] at h
    simp only [Option.map_some', Option.some.injEq, Prod.mk.injEq] at h
    obtain ⟨hout, -, hll3⟩ := h
    obtain ⟨hOK, hcol, hll3le⟩ := ihf 0 _ _ _ _ (by omega) hrec
    subst hout hll3
    have hw10 : 10 ∉ p.take toWrite := by
      intro hm
      apply hnolf
      have htt : p.take toWrite = (p.take (maxLineLen - lineLen)).take toWrite := by
        rw [List.take_take, Nat.min_eq_left htw]
      rw [htt] at hm
      exact List.take_subset _ _ hm
    have h1061 : 10 ∉ p.take toWrite ++ [61, 13] := by
      intro hm
      rcases List.mem_append.mp hm with hm | hm
      · exact hw10 hm
      · simp at hm
    have hshape : p.take toWrite ++ [61, 13, 10] ++ out2 =
        (p.take toWrite ++ [61, 13]) ++ 10 :: out2 := by simp
    have hls : lfSplit (p.take toWrite ++ [61, 13, 10] ++ out2) =
        (p.take toWrite ++ [61, 13]) :: lfSplit out2 := by
      rw [hshape]
      exact lfSplit_append_lf _ h1061
    rw [hls]
    refine ⟨?_, ?_, hll3le⟩
    · rw [linesOK_cons (lfSplit_ne_nil out2)]
      refine Bool.and_eq_true_iff.mpr ⟨?_, hOK⟩
      have hv : visLen (p.take toWrite ++ [61, 13]) = (p.take toWrite).length + 1 := by
        have hsh : p.take toWrite ++ [61, 13] = (p.take toWrite ++ [61]) ++ [13] := by simp
        rw [hsh, visLen_concat13]
        simp
      have hlt : (p.take toWrite).length ≤ toWrite := by
        rw [List.length_take]
        omega
      rw [hv]
      simp only [decide_eq_true_eq]
      unfold maxLineLen at htw
      omega
    · rw [colAfter_cons (lfSplit_ne_nil out2)]
      exact hcol

theorem qpWriteGo_linesOK (fuel : Nat) :
    ∀ lineLen p out n ll2, lineLen ≤ 77 →
      qpWriteGo fuel lineLen p = some (out, n, ll2) →
      linesOK 79 lineLen (lfSplit out) = true ∧
      colAfter lineLen (lfSplit out) ≤ ll2 ∧ ll2 ≤ 77 := by
  induction fuel with
  | zero =>
    intro lineLen p out n ll2 hll h
    cases p with
    | nil =>
      simp only [qpWriteGo, Option.some.injEq, Prod.mk.injEq] at h
      obtain ⟨rfl, -, rfl⟩ := h
      exact ⟨rfl, by simp [lfSplit, colAfter], hll⟩
    | cons c cs => simp [qpWriteGo] at h
  | succ f ih =>
    intro lineLen p out n ll2 hll h
    by_cases hpn : p = []
    · subst hpn
      simp only [qpWriteGo, Option.some.injEq, Prod.mk.injEq] at h
      obtain ⟨rfl, -, rfl⟩ := h
      exact ⟨rfl, by simp [lfSplit, colAfter], hll⟩
    · rw [qpWriteGo_succ_ne f lineLen p hpn] at h
      by_cases h1 : p.length < maxLineLen - lineLen
      · rw [if_pos h1] at h
        simp only [Option.some.injEq, Prod.mk.injEq] at h
        obtain ⟨rfl, -, rfl⟩ := h
        have hlen : lineLen + p.length ≤ 77 := by
          unfold maxLineLen at h1
          omega
        refine ⟨?_, ?_, hlen⟩
        · refine linesOK_of_bounds ?_
          intro s hs
          have := lfSplit_seg_le p s hs
          omega
        · exact colAfter_le lineLen p
      · rw [if_neg h1] at h
        by_cases h2 : p.length < maxLineLen - lineLen + 2
        · rw [if_pos h2] at h
          simp at h
        · rw [if_neg h2] at h
          simp only at h
          cases hfind : findLF (p.take (maxLineLen - lineLen + 2)) with
          | some i =>
            rw [hfind] at h
            dsimp only at h
            obtain ⟨hilt, hgd, hnotin⟩ := findLF_spec hfind
            have hqlen : (p.take (maxLineLen - lineLen + 2)).length =
                maxLineLen - lineLen + 2 := by
              rw [List.length_take]
              omega
            have hilt2 : i < maxLineLen - lineLen + 2 := by rw [hqlen] at hilt; omega
            have hiplen : i < p.length := by omega
            have hgdp : p.getD i 0 = 10 := by
              rw [List.getD_eq_getElem?_getD, ← List.getElem?_take_of_lt hilt2,
                ← List.getD_eq_getElem?_getD]
              exact hgd
            have hnotinp : 10 ∉ p.take i := by
              intro hm
              apply hnotin
              rw [List.take_take, Nat.min_eq_left (by omega)]
              exact hm
            by_cases hcond : i ≠ maxLineLen - lineLen + 1 ∨ p.getD (i - 1) 0 = 13
            · rw [if_pos hcond] at h
              dsimp only at h
              cases hrec : qpWriteGo f 0 (p.drop (i + 1)) with
              | none => rw [hrec] at h; simp at h
              | some r =>
                obtain ⟨out2, n2, ll3⟩ := r
                rw [hrec] at h
                simp only [Option.map_some', Option.some.injEq, Prod.mk.injEq] at h
                obtain ⟨hout, -, hll3⟩ := h
                obtain ⟨hOK, hcol, hll3le⟩ := ih 0 _ _ _ _ (by omega) hrec
                subst hout hll3
                have hw : p.take (i + 1) = p.take i ++ [p.getD i 0] := by
                  rw [List.take_succ]
                  congr 1
                  rw [List.getD_eq_getElem?_getD]
                  cases hge : p[i]? with
                  | none =>
                    rw [List.getElem?_eq_none_iff] at hge
                    exact absurd hiplen (by omega)
                  | some v => simp
                have hsp : lfSplit (p.take (i + 1) ++ out2) = p.take i :: lfSplit out2 := by
                  rw [hw, hgdp]
                  have : p.take i ++ [10] ++ out2 = p.take i ++ 10 :: out2 := by simp
                  rw [this]
                  exact lfSplit_append_lf _ hnotinp
                rw [hsp]
                refine ⟨?_, ?_, hll3le⟩
                · rw [linesOK_cons (lfSplit_ne_nil out2)]
                  refine Bool.and_eq_true_iff.mpr ⟨?_, hOK⟩
                  simp only [decide_eq_true_eq]
                  have hwl : (p.take i).length = i := by rw [List.length_take]; omega
                  rcases Nat.lt_or_ge i (maxLineLen - lineLen + 1) with hi | hi
                  · have := visLen_le (p.take i)
                    unfold maxLineLen at hi
                    omega
                  · have hieq : i = maxLineLen - lineLen + 1 := by omega
                    have h13 : p.getD (i - 1) 0 = 13 := by
                      rcases hcond with hc | hc
                      · exact absurd hieq hc
                      · exact hc
                    have hι : 1 ≤ i := by unfold maxLineLen at hieq; omega
                    have hw13 : p.take i = p.take (i - 1) ++ [13] := by
                      have hi1 : i - 1 + 1 = i := by omega
                      rw [← hi1, List.take_succ]
                      congr 1
                      · have : p[i-1]? = some (p.getD (i - 1) 0) := by
                          rw [List.getD_eq_getElem?_getD]
                          cases hge : p[i-1]? with
                          | none =>
                            rw [List.getElem?_eq_none_iff] at hge
                            exact absurd hiplen (by omega)
                          | some v => simp
                        rw [this, h13]
                        rfl
                    rw [hw13, visLen_concat13]
                    have : (p.take (i - 1)).length = i - 1 := by
                      rw [List.length_take]; omega
                    unfold maxLineLen at hieq
                    omega
                · rw [colAfter_cons (lfSplit_ne_nil out2)]
                  exact hcol
            · rw [if_neg hcond] at h
              dsimp only at h
              push_neg at hcond
              obtain ⟨hieq, hne13⟩ := hcond
              refine qpWriteGo_soft_ok hll ?_ ?_ ih h
              · by_cases ha : 2 ≤ maxLineLen - lineLen ∧ p.getD (maxLineLen - lineLen - 2) 0 = 61
                · rw [if_pos ha]; omega
                · rw [if_neg ha]
                  by_cases hb2 : p.getD (maxLineLen - lineLen - 1) 0 = 61
                  · rw [if_pos hb2]; omega
                  · rw [if_neg hb2]
              · intro hm
                apply hnotinp
                rw [hieq]
                have htt : p.take (maxLineLen - lineLen) =
                    (p.take (maxLineLen - lineLen + 1)).take (maxLineLen - lineLen) := by
                  rw [List.take_take, Nat.min_eq_left (by omega)]
                rw [htt] at hm
                exact List.take_subset _ _ hm
          | none =>
            rw [hfind] at h
            dsimp only at h
            have hnoq := findLF_none hfind
            refine qpWriteGo_soft_ok hll ?_ ?_ ih h
            · by_cases ha : 2 ≤ maxLineLen - lineLen ∧ p.getD (maxLineLen - lineLen - 2) 0 = 61
              · rw [if_pos ha]; omega
              · rw [if_neg ha]
                by_cases hb2 : p.getD (maxLineLen - lineLen - 1) 0 = 61
                · rw [if_pos hb2]; omega
                · rw [if_neg hb2]
            · intro hm
              apply hnoq
              have : p.take (maxLineLen - lineLen) =
                  (p.take (maxLineLen - lineLen + 2)).take (maxLineLen - lineLen) := by
                rw [List.take_take, Nat.min_eq_left (by omega)]
              rw [this] at hm
              exact List.take_subset _ _ hm

theorem lfSplit_eq_single {p : List Nat} (h : 10 ∉ p) : lfSplit p = [p] := by
  induction p with
  | nil => rfl
  | cons c rest ih =>
    rw [lfSplit.eq_def]
    dsimp only
    have hc : ¬c = 10 := by
      intro hc
      exact h (by rw [hc]; exact List.mem_cons_self _ _)
    rw [if_neg hc, ih (fun hm => h (List.mem_cons_of_mem _ hm))]

theorem b64WriteGo_linesOK (fuel : Nat) :
    ∀ lineLen p out n ll2, lineLen ≤ 78 → 10 ∉ p → 13 ∉ p →
      b64WriteGo fuel lineLen p = some (out, n, ll2) →
      linesOK 78 lineLen (lfSplit out) = true ∧
      colAfter lineLen (lfSplit out) ≤ ll2 ∧ ll2 ≤ 78 := by
  induction fuel with
  | zero =>
    intro lineLen p out n ll2 _ _ _ h
    simp [b64WriteGo] at h
  | succ f ih =>
    intro lineLen p out n ll2 hll hno10 hno13 h
    rw [b64WriteGo] at h
    by_cases hlong : p.length + lineLen > maxLineLen
    · rw [if_pos hlong] at h
      cases hrec : b64WriteGo f 0 (p.drop (maxLineLen - lineLen)) with
      | none => rw [hrec] at h; simp at h
      | some r =>
        obtain ⟨out2, n2, ll3⟩ := r
        rw [hrec] at h
        simp only [Option.map_some', Option.some.injEq, Prod.mk.injEq] at h
        obtain ⟨hout, -, hll3⟩ := h
        obtain ⟨hOK, hcol, hll3le⟩ := ih 0 _ _ _ _ (by omega)
          (fun hm => hno10 (List.drop_subset _ _ hm))
          (fun hm => hno13 (List.drop_subset _ _ hm)) hrec
        subst hout hll3
        have hw10 : 10 ∉ p.take (maxLineLen - lineLen) ++ [13] := by
          intro hm
          rcases List.mem_append.mp hm with hm | hm
          · exact hno10 (List.take_subset _ _ hm)
          · simp at hm
        have hshape : p.take (maxLineLen - lineLen) ++ [13, 10] ++ out2 =
            (p.take (maxLineLen - lineLen) ++ [13]) ++ 10 :: out2 := by simp
        have hls : lfSplit (p.take (maxLineLen - lineLen) ++ [13, 10] ++ out2) =
            (p.take (maxLineLen - lineLen) ++ [13]) :: lfSplit out2 := by
          rw [hshape]
          exact lfSplit_append_lf _ hw10
        rw [hls]
        refine ⟨?_, ?_, hll3le⟩
        · rw [linesOK_cons (lfSplit_ne_nil out2)]
          refine Bool.and_eq_true_iff.mpr ⟨?_, hOK⟩
          simp only [decide_eq_true_eq]
          rw [visLen_concat13]
          have : (p.take (maxLineLen - lineLen)).length ≤ maxLineLen - lineLen := by
            rw [List.length_take]
            omega
          unfold maxLineLen at this ⊢
          omega
        · rw [colAfter_cons (lfSplit_ne_nil out2)]
          exact hcol
    · rw [if_neg hlong] at h
      simp only [Option.some.injEq, Prod.mk.injEq] at h
      obtain ⟨rfl, -, rfl⟩ := h
      rw [lfSplit_eq_single hno10]
      refine ⟨rfl, le_refl _, ?_⟩
      unfold maxLineLen at hlong
      omega

/-! ## The MIME multipart assembler (gomail `Message.Export`) -/

theorem dropWhile_all_not {α : Type} {p : α → Bool} (l : List α)
    (h : ∀ e ∈ l, p e = false) : (l.dropWhile p).all (fun e => !p e) = true := by
  have hl : l.dropWhile p = l := by
    cases l with
    | nil => rfl
    | cons e es => rw [List.dropWhile_cons]; simp [h e (by simp)]
  rw [hl]
  simp only [List.all_eq_true]
  intro e he
  simp [h e he]

/-! ## The streaming encoder's short-write recovery (Go `encoder.Write`) -/

theorem hextable_getD_ne (i : Nat) : hextable.getD i 0 ≠ 61 := by
  match i with
  | 0 | 1 | 2 | 3 | 4 | 5 | 6 | 7 | 8 | 9 | 10 | 11 | 12 | 13 | 14 | 15 => decide
  | n + 16 =>
    rw [List.getD_eq_default]
    · decide
    · simp [hextable]

theorem encUnit_shape (c : Nat) (rest : List Nat) :
    (∃ b, encUnit c rest = [b] ∧ b ≠ 61) ∨ (∃ g1 g2, encUnit c rest = [61, g1, g2]) := by
  unfold encUnit
  by_cases h1 : (c != 61 && (isVchar c || isNewline c)) = true
  · left
    refine ⟨c, by simp [h1], ?_⟩
    have h1c := h1
    simp only [Bool.and_eq_true, bne_iff_ne] at h1c
    exact h1c.1
  · by_cases h2 : isWSP c = true
    · by_cases h3 : isLastChar rest = true
      · right
        exact ⟨hextable.getD (c / 16) 0, hextable.getD (c % 16) 0,
          by simp [h1, h2, h3, encodeByte]⟩
      · left
        refine ⟨c, by simp [h1, h2, h3], ?_⟩
        simp only [isWSP, Bool.or_eq_true, beq_iff_eq] at h2
        rcases h2 with h2 | h2 <;> omega
    · right
      exact ⟨hextable.getD (c / 16) 0, hextable.getD (c % 16) 0,
        by simp [h1, h2, encodeByte]⟩

theorem encUnits_shape (src : List Nat) :
    ∀ u ∈ encUnits src, (∃ b, u = [b] ∧ b ≠ 61) ∨ (∃ g1 g2, u = [61, g1, g2]) := by
  induction src with
  | nil => simp [encUnits]
  | cons c rest ih =>
    intro u hu
    rw [encUnits] at hu
    rcases List.mem_cons.mp hu with h | h
    · subst h; exact encUnit_shape c rest
    · exact ih u h

theorem encUnits_length (src : List Nat) : (encUnits src).length = src.length := by
  induction src with
  | nil => rfl
  | cons c rest ih => simp [encUnits, ih]

theorem countConsumed_take_flatten (us : List (List Nat))
    (hu : ∀ u ∈ us, (∃ b, u = [b] ∧ b ≠ 61) ∨ (∃ g1 g2, u = [61, g1, g2])) (k : Nat) :
    countConsumed (us.flatten.take k) = unitsWithin us k := by
  induction us generalizing k with
  | nil => simp [unitsWithin, countConsumed]
  | cons u us ih =>
    have ihus := ih (fun v hv => hu v (by simp [hv]))
    rcases hu u (by simp) with ⟨b, hb, hbne⟩ | ⟨g1, g2, hg⟩
    · subst hb
      cases k with
      | zero => simp [unitsWithin, countConsumed]
      | succ k2 =>
        have hstep : countConsumed (b :: us.flatten.take k2) =
            1 + countConsumed (us.flatten.take k2) := by
          rw [countConsumed.eq_def]
          simp [hbne]
        have hflat : (([b] :: us).flatten).take (k2 + 1) = b :: us.flatten.take k2 := by
          simp
        rw [hflat, hstep, ihus k2]
        rw [unitsWithin, if_pos (by simp)]
        simp [Nat.add_comm]
    · subst hg
      rcases Nat.lt_or_ge k 3 with hk | hk
      · interval_cases k <;> simp [unitsWithin, countConsumed]
      · obtain ⟨k2, rfl⟩ : ∃ k2, k = k2 + 3 := ⟨k - 3, by omega⟩
        have hstep : countConsumed (61 :: g1 :: g2 :: us.flatten.take k2) =
            1 + countConsumed (us.flatten.take k2) := rfl
        have hflat : (([61, g1, g2] :: us).flatten).take (k2 + 3) =
            61 :: g1 :: g2 :: us.flatten.take k2 := by
          show List.take (k2 + 2 + 1) _ = _
          rw [List.flatten_cons, List.cons_append, List.take_succ_cons]
          show 61 :: List.take (k2 + 1 + 1) _ = _
          rw [List.cons_append, List.take_succ_cons]
          show 61 :: g1 :: List.take (k2 + 0 + 1) _ = _
          rw [List.cons_append, List.take_succ_cons]
          simp
        rw [hflat, hstep, ihus k2]
        rw [unitsWithin, if_pos (by simp)]
        have hsub : k2 + 3 - ([61, g1, g2] : List Nat).length = k2 := by simp
        rw [hsub]
        simp [Nat.add_comm]

theorem unitsWithin_flatten_le (us : List (List Nat)) (k : Nat) :
    ((us.take (unitsWithin us k)).flatten).length ≤ k := by
  induction us generalizing k with
  | nil => simp [unitsWithin]
  | cons u us ih =>
    by_cases h : u.length ≤ k
    · have hrec := ih (k - u.length)
      rw [unitsWithin, if_pos h, List.take_succ_cons]
      simp only [List.flatten_cons, List.length_append]
      omega
    · rw [unitsWithin, if_neg h]
      simp

theorem unitsWithin_maximal (us : List (List Nat)) (k : Nat)
    (hne : ∀ u ∈ us, u ≠ []) (h : unitsWithin us k < us.length) :
    k < ((us.take (unitsWithin us k + 1)).flatten).length := by
  induction us generalizing k with
  | nil => simp [unitsWithin] at h
  | cons u us ih =>
    by_cases hle : u.length ≤ k
    · have hh : unitsWithin us (k - u.length) < us.length := by
        rw [unitsWithin, if_pos hle] at h
        simp only [List.length_cons] at h
        omega
      have hrec := ih (k - u.length) (fun v hv => hne v (by simp [hv])) hh
      rw [unitsWithin, if_pos hle, List.take_succ_cons]
      simp only [List.flatten_cons, List.length_append]
      omega
    · have hulen : 0 < u.length := List.length_pos.mpr (hne u (by simp))
      rw [unitsWithin, if_neg hle]
      simp only [Nat.zero_add, List.take_succ_cons, List.take_zero, List.flatten_cons,
        List.flatten_nil, List.append_nil]
      omega

/-! ## Invariants of the header encoder -/

theorem writeQ_length (b : Nat) :
    (writeQ b).length = if qSafe b then 1 else 3 := by
  rw [writeQ, qSafe]
  by_cases h32 : (b == 32) = true
  · simp [h32]
  · by_cases hv : (isVchar b && b != 61 && b != 63 && b != 95) = true
    · simp [h32, hv]
    · simp [h32, hv, encodeByte]

theorem qSafe_contByte {b : Nat} (h : contByte b = true) : qSafe b = false := by
  rw [contByte, Bool.and_eq_true, decide_eq_true_eq, decide_eq_true_eq] at h
  rw [qSafe, isVchar]
  have h32 : (b == 32) = false := by simp; omega
  have hv : (decide (33 ≤ b) && decide (b ≤ 126)) = false := by
    simp only [Bool.and_eq_false_iff, decide_eq_false_iff_not, not_le]
    right
    omega
  rw [h32, hv]
  rfl

theorem flatMap_writeQ_length {l : List Nat} (h : ∀ x ∈ l, qSafe x = false) :
    (l.flatMap writeQ).length = 3 * l.length := by
  induction l with
  | nil => rfl
  | cons a t ih =>
    rw [List.flatMap_cons, List.length_append, writeQ_length,
      if_neg (by rw [h a (List.mem_cons_self _ _)]; simp),
      ih (fun x hx => h x (List.mem_cons_of_mem _ hx)), List.length_cons]
    ring

theorem qChunksGo_render (fuel : Nat) :
    ∀ s, ∀ ch ∈ qChunksGo fuel s,
      (chunkRender ch).length = chunkEncLen ch ∧ 1 ≤ ch.length := by
  induction fuel with
  | zero =>
    intro s ch hm
    cases s with
    | nil => simp [qChunksGo] at hm
    | cons b rest => simp [qChunksGo] at hm
  | succ f ih =>
    intro s ch hm
    cases s with
    | nil => simp [qChunksGo] at hm
    | cons b rest =>
      rw [qChunksGo] at hm
      by_cases hs : qSafe b = true
      · rw [if_pos hs] at hm
        rcases List.mem_cons.mp hm with rfl | hm
        · refine ⟨?_, by simp⟩
          rw [chunkRender, chunkEncLen]
          simp only [List.flatMap_cons, List.flatMap_nil, List.append_nil, List.headD_cons]
          rw [writeQ_length, if_pos hs, if_pos hs]
        · exact ih rest ch hm
      · rw [if_neg hs] at hm
        rcases List.mem_cons.mp hm with rfl | hm
        · refine ⟨?_, by simp⟩
          rw [chunkRender, chunkEncLen]
          simp only [List.headD_cons]
          rw [if_neg hs, flatMap_writeQ_length]
          intro x hx
          rcases List.mem_cons.mp hx with rfl | hx
          · exact Bool.eq_false_iff.mpr hs
          · exact qSafe_contByte (pred_of_mem_takeWhile hx)
        · exact ih _ ch hm

theorem qSplitGo_spec :
    ∀ chs n cur,
      (∀ ch ∈ chs, (chunkRender ch).length = chunkEncLen ch ∧ chunkEncLen ch ≤ 12) →
      n ≤ 73 → n = 10 + cur.length →
      (∀ p ∈ qSplitGo chs n cur, p.length ≤ 63) ∧
      ∃ g gs, g ++ List.flatten gs = chs ∧
        qSplitGo chs n cur = (cur ++ chunksRender g) :: gs.map chunksRender := by
  intro chs
  induction chs with
  | nil =>
    intro n cur hch hn hcur
    refine ⟨?_, [], [], by simp, by simp [qSplitGo, chunksRender]⟩
    intro p hp
    simp only [qSplitGo, List.mem_singleton] at hp
    subst hp
    omega
  | cons ch chs ih =>
    intro n cur hch hn hcur
    obtain ⟨hr, he⟩ := hch ch (List.mem_cons_self _ _)
    have hch2 : ∀ c ∈ chs, (chunkRender c).length = chunkEncLen c ∧ chunkEncLen c ≤ 12 :=
      fun c hm => hch c (List.mem_cons_of_mem _ hm)
    rw [qSplitGo]
    by_cases hsplit : n + chunkEncLen ch > maxEncodedWordLen - 2
    · rw [if_pos hsplit]
      obtain ⟨hlen, g, gs, hflat, heq⟩ :=
        ih (10 + chunkEncLen ch) (chunkRender ch) hch2
          (by unfold maxEncodedWordLen at *; omega) (by rw [hr])
      constructor
      · intro p hp
        rcases List.mem_cons.mp hp with rfl | hp
        · omega
        · exact hlen p hp
      · refine ⟨[], (ch :: g) :: gs, by simp [← hflat], ?_⟩
        rw [heq]
        simp [chunksRender]
    · rw [if_neg hsplit]
      obtain ⟨hlen, g, gs, hflat, heq⟩ :=
        ih (n + chunkEncLen ch) (cur ++ chunkRender ch) hch2
          (by unfold maxEncodedWordLen at hsplit; omega)
          (by rw [List.length_append, hr]; omega)
      refine ⟨hlen, ch :: g, gs, by simp [← hflat], ?_⟩
      rw [heq]
      simp [chunksRender]

theorem b64Encode_length (l : List Nat) : (b64Encode l).length = encodedLen l.length := by
  induction l using b64Encode.induct with
  | case1 a b c rest ih =>
    rw [b64Encode]
    simp only [List.length_cons]
    rw [ih]
    unfold encodedLen
    omega
  | case2 a b => simp [b64Encode, encodedLen]
  | case3 a => simp [b64Encode, encodedLen]
  | case4 => rfl

theorem length_dropWhile_le_self (p : Nat → Bool) (l : List Nat) :
    (l.dropWhile p).length ≤ l.length := by
  induction l with
  | nil => simp
  | cons a t ih =>
    rw [List.dropWhile_cons]
    by_cases hp : p a = true
    · simp only [if_pos hp]
      exact Nat.le_trans ih (by simp)
    · simp [hp]

theorem bChunksGo_flatten (fuel : Nat) :
    ∀ s : List Nat, s.length ≤ fuel → (bChunksGo fuel s).flatten = s := by
  induction fuel with
  | zero =>
    intro s h
    cases s with
    | nil => rfl
    | cons b rest => simp at h
  | succ f ih =>
    intro s h
    cases s with
    | nil => rfl
    | cons b rest =>
      rw [bChunksGo, List.flatten_cons,
        ih (rest.dropWhile contByte)
          (by
            have hd := length_dropWhile_le_self contByte rest
            simp only [List.length_cons] at h
            omega),
        List.cons_append, List.takeWhile_append_dropWhile]

theorem bRuns_spec :
    ∀ chs n cur,
      (∀ ch ∈ chs, ch.length ≤ 4) →
      n = cur.length → encodedLen n ≤ 63 →
      (∀ r ∈ bRuns chs n cur, encodedLen r.length ≤ 63) ∧
      ∃ g gs, g ++ List.flatten gs = chs ∧
        bRuns chs n cur = (cur ++ g.flatten) :: gs.map List.flatten := by
  intro chs
  induction chs with
  | nil =>
    intro n cur hch hn he
    refine ⟨?_, [], [], by simp, by simp [bRuns]⟩
    intro r hr
    simp only [bRuns, List.mem_singleton] at hr
    subst hr
    rw [← hn]
    exact he
  | cons ch chs ih =>
    intro n cur hch hn he
    have hc4 := hch ch (List.mem_cons_self _ _)
    have hch2 : ∀ c ∈ chs, c.length ≤ 4 := fun c hm => hch c (List.mem_cons_of_mem _ hm)
    rw [bRuns]
    by_cases hfit : encodedLen (n + ch.length) ≤ maxEncodedWordLen - 10 - 2
    · rw [if_pos hfit]
      obtain ⟨hlen, g, gs, hflat, heq⟩ :=
        ih (n + ch.length) (cur ++ ch) hch2 (by rw [List.length_append, hn])
          (by unfold maxEncodedWordLen at hfit; omega)
      refine ⟨hlen, ch :: g, gs, by simp [← hflat], ?_⟩
      rw [heq]
      simp
    · rw [if_neg hfit]
      obtain ⟨hlen, g, gs, hflat, heq⟩ :=
        ih ch.length ch hch2 rfl (by unfold encodedLen; omega)
      constructor
      · intro r hr
        rcases List.mem_cons.mp hr with rfl | hr
        · rw [← hn]; exact he
        · exact hlen r hr
      · refine ⟨[], (ch :: g) :: gs, by simp [← hflat], ?_⟩
        rw [heq]
        simp

/-! ## Round trip of the header codec -/

theorem hextable_getD_ne63 (i : Nat) : hextable.getD i 0 ≠ 63 := by
  match i with
  | 0 | 1 | 2 | 3 | 4 | 5 | 6 | 7 | 8 | 9 | 10 | 11 | 12 | 13 | 14 | 15 => decide
  | n + 16 =>
    rw [List.getD_eq_default]
    · decide
    · simp [hextable]

theorem writeQ_ne63 {b y : Nat} (h : y ∈ writeQ b) : y ≠ 63 := by
  rw [writeQ] at h
  by_cases h32 : (b == 32) = true
  · rw [if_pos h32] at h
    simp only [List.mem_singleton] at h
    subst h
    decide
  · rw [if_neg h32] at h
    by_cases hv : (isVchar b && b != 61 && b != 63 && b != 95) = true
    · rw [if_pos hv] at h
      simp only [List.mem_singleton] at h
      subst h
      simp only [Bool.and_eq_true, bne_iff_ne] at hv
      exact hv.1.2
    · rw [if_neg hv] at h
      rw [encodeByte] at h
      simp only [List.mem_cons, List.not_mem_nil, or_false] at h
      rcases h with rfl | rfl | rfl
      · decide
      · exact hextable_getD_ne63 _
      · exact hextable_getD_ne63 _

theorem chunksRender_eq (g : List (List Nat)) :
    chunksRender g = g.flatten.flatMap writeQ := by
  induction g with
  | nil => rfl
  | cons ch g ih =>
    rw [chunksRender, List.map_cons, List.flatten_cons, List.flatten_cons,
      List.flatMap_append]
    rw [chunksRender] at ih
    rw [ih]
    rfl

theorem qDecode_writeQ {b : Nat} (hb : b < 256) (rest : List Nat) :
    qDecode (writeQ b ++ rest) = (qDecode rest).map (b :: ·) := by
  rw [writeQ]
  by_cases h32 : (b == 32) = true
  · rw [if_pos h32]
    have hb32 : b = 32 := by simpa using h32
    subst hb32
    rw [List.singleton_append, qDecode.eq_def]
    dsimp only
    rw [if_pos rfl]
  · rw [if_neg h32]
    by_cases hv : (isVchar b && b != 61 && b != 63 && b != 95) = true
    · rw [if_pos hv]
      simp only [Bool.and_eq_true, bne_iff_ne] at hv
      obtain ⟨⟨⟨hvc, h61⟩, h63⟩, h95⟩ := hv
      rw [List.singleton_append, qDecode.eq_def]
      dsimp only
      rw [if_neg h95, if_neg h61, if_pos (by simp [hvc])]
    · rw [if_neg hv, encodeByte]
      show qDecode (61 :: hextable.getD (b / 16) 0 :: hextable.getD (b % 16) 0 :: rest) = _
      rw [qDecode.eq_def]
      dsimp only
      rw [if_neg (by decide), if_pos rfl, readHexByte_encodeByte b hb]

theorem qDecode_flatMap_writeQ {l : List Nat} (hb : ∀ b ∈ l, b < 256) :
    qDecode (l.flatMap writeQ) = .ok l := by
  induction l with
  | nil => rfl
  | cons b l ih =>
    rw [List.flatMap_cons, qDecode_writeQ (hb b (List.mem_cons_self _ _)),
      ih fun x hx => hb x (List.mem_cons_of_mem _ hx)]
    rfl

theorem qChunksGo_flatten (fuel : Nat) :
    ∀ s : List Nat, s.length ≤ fuel → (qChunksGo fuel s).flatten = s := by
  induction fuel with
  | zero =>
    intro s h
    cases s with
    | nil => rfl
    | cons b rest => simp at h
  | succ f ih =>
    intro s h
    cases s with
    | nil => rfl
    | cons b rest =>
      simp only [List.length_cons] at h
      rw [qChunksGo]
      by_cases hs : qSafe b = true
      · rw [if_pos hs, List.flatten_cons, ih rest (by omega)]
        rfl
      · rw [if_neg hs, List.flatten_cons,
          ih (rest.dropWhile contByte)
            (by have := length_dropWhile_le_self contByte rest; omega),
          List.cons_append, List.takeWhile_append_dropWhile]

theorem qSplitGo_payload_ne_nil :
    ∀ chs (n : Nat) cur,
      (∀ ch ∈ chs, (chunkRender ch).length = chunkEncLen ch ∧ 1 ≤ chunkEncLen ch) →
      cur ≠ [] →
      ∀ p ∈ qSplitGo chs n cur, p ≠ [] := by
  intro chs
  induction chs with
  | nil =>
    intro n cur hch hcur p hp
    simp only [qSplitGo, List.mem_singleton] at hp
    subst hp
    exact hcur
  | cons ch chs ih =>
    intro n cur hch hcur p hp
    obtain ⟨hr, h1⟩ := hch ch (List.mem_cons_self _ _)
    have hch2 := fun c hm => hch c (List.mem_cons_of_mem _ hm)
    rw [qSplitGo] at hp
    by_cases hsplit : n + chunkEncLen ch > maxEncodedWordLen - 2
    · rw [if_pos hsplit] at hp
      rcases List.mem_cons.mp hp with rfl | hp
      · exact hcur
      · exact ih _ _ hch2 (by rw [← List.length_pos, hr]; omega) p hp
    · rw [if_neg hsplit] at hp
      exact ih _ _ hch2 (by simp [hcur]) p hp

theorem qWords_ne_nil (s : List Nat)
    (hch : ∀ ch ∈ qChunks s,
      (chunkRender ch).length = chunkEncLen ch ∧ 1 ≤ chunkEncLen ch ∧ chunkEncLen ch ≤ 12)
    (hs : qChunks s ≠ []) : ∀ p ∈ qWords s, p ≠ [] := by
  rw [qWords]
  cases hcs : qChunks s with
  | nil => exact absurd hcs hs
  | cons c chs =>
    obtain ⟨hr, h1, h12⟩ := hch c (by rw [hcs]; exact List.mem_cons_self _ _)
    have hch2 : ∀ ch ∈ chs,
        (chunkRender ch).length = chunkEncLen ch ∧ 1 ≤ chunkEncLen ch :=
      fun ch hm => ⟨(hch ch (by rw [hcs]; exact List.mem_cons_of_mem _ hm)).1,
        (hch ch (by rw [hcs]; exact List.mem_cons_of_mem _ hm)).2.1⟩
    rw [qSplitGo, if_neg (by unfold maxEncodedWordLen; omega)]
    exact qSplitGo_payload_ne_nil chs _ _ hch2
      (by rw [List.nil_append, ← List.length_pos, hr]; omega)

theorem findWord_renderWord (p : List Nat) (hp : p ≠ []) (h63 : ∀ x ∈ p, x ≠ 63)
    (tail : List Nat) :
    findWord (renderWord p ++ tail) = some (utf8Name, 81, p) := by
  have hshape : renderWord p ++ tail =
      61 :: 63 :: (utf8Name ++ 63 :: 81 :: 63 :: (p ++ 63 :: 61 :: tail)) := by
    simp [renderWord, qOpen, utf8Name]
  have hcs : (utf8Name ++ 63 :: 81 :: 63 :: (p ++ 63 :: 61 :: tail)).takeWhile wordChar =
      utf8Name := by
    rw [takeWhile_append_all _ (by decide)]
    simp [List.takeWhile_cons, wordChar]
  have hcsd : (utf8Name ++ 63 :: 81 :: 63 :: (p ++ 63 :: 61 :: tail)).dropWhile wordChar =
      63 :: 81 :: 63 :: (p ++ 63 :: 61 :: tail) := by
    rw [dropWhile_append_all _ (by decide)]
    rw [List.dropWhile_cons_of_neg (by decide)]
  have hpw : ∀ x ∈ p, (x != 63) = true := fun x hx => by
    simp only [bne_iff_ne]
    exact h63 x hx
  have hpay : (p ++ 63 :: 61 :: tail).takeWhile (fun b => b != 63) = p := by
    rw [takeWhile_append_all _ hpw]
    rw [List.takeWhile_cons_of_neg (by decide)]
    simp
  have hpayd : (p ++ 63 :: 61 :: tail).dropWhile (fun b => b != 63) = 63 :: 61 :: tail := by
    rw [dropWhile_append_all _ hpw]
    rw [List.dropWhile_cons_of_neg (by decide)]
  rw [hshape, findWord]
  dsimp only
  rw [if_pos (by decide)]
  rw [hcs, hcsd]
  rw [if_neg (by decide)]
  dsimp only
  rw [if_pos (by decide)]
  rw [hpay, hpayd]
  rw [if_neg hp]
  dsimp only
  rw [if_pos (by decide)]

theorem wordBytes_utf8Q (p : List Nat) : wordBytes utf8Name 81 p = renderWord p := by
  simp [wordBytes, renderWord, qOpen, utf8Name]

theorem joinWords_two (a b : List Nat) (l : List (List Nat)) :
    joinWords (a :: b :: l) = a ++ [13, 10, 32] ++ joinWords (b :: l) := rfl

theorem joinWords_cons (w : List Nat) (ws : List (List Nat)) :
    ∃ t, joinWords (w :: ws) = w ++ t := by
  cases ws with
  | nil => exact ⟨[], by simp [joinWords]⟩
  | cons w2 ws2 =>
    exact ⟨[13, 10, 32] ++ joinWords (w2 :: ws2),
      by rw [joinWords_two, List.append_assoc]⟩

theorem joinWords_length_ge (ws : List (List Nat)) (h : ∀ w ∈ ws, 1 ≤ w.length) :
    ws.length ≤ (joinWords ws).length := by
  induction ws with
  | nil => simp [joinWords]
  | cons w ws ih =>
    cases ws with
    | nil =>
      simp only [joinWords, List.length_cons, List.length_nil]
      have := h w (List.mem_cons_self _ _)
      omega
    | cons w2 ws2 =>
      rw [joinWords_two]
      have hrec := ih fun x hx => h x (List.mem_cons_of_mem _ hx)
      simp only [List.length_append, List.length_cons]
      simp only [List.length_cons] at hrec
      omega

theorem decodeHeaderGo_nil (fuel : Nat) (cs : List Nat) :
    decodeHeaderGo fuel [] cs = .ok ([], cs) := by
  cases fuel with
  | zero => rfl
  | succ f => rfl

theorem wsLen_crlfsp (t : List Nat) : wsLen (13 :: 10 :: 32 :: 61 :: t) = 3 := by
  rw [wsLen, List.takeWhile_cons_of_pos (by decide), List.takeWhile_cons_of_pos (by decide),
    List.takeWhile_cons_of_pos (by decide), List.takeWhile_cons_of_neg (by decide)]
  rfl

theorem renderWord_append_head (p t : List Nat) :
    renderWord p ++ t =
      61 :: (63 :: (utf8Name ++ (63 :: 81 :: 63 :: (p ++ (63 :: 61 :: t))))) := by
  simp [renderWord, qOpen, utf8Name]

theorem flatten_map_flatten (L : List (List (List Nat))) :
    (L.map List.flatten).flatten = L.flatten.flatten := by
  induction L with
  | nil => rfl
  | cons g L ih =>
    rw [List.map_cons, List.flatten_cons, List.flatten_cons, List.flatten_append, ih]

theorem decodeWordsGo_groups :
    ∀ (gss : List (List (List Nat))) (fuel : Nat) (g : List (List Nat)) (charset : List Nat),
      gss.length < fuel →
      (∀ x ∈ g :: gss, chunksRender x ≠ [] ∧ ∀ b ∈ x.flatten, b < 256) →
      (charset = [] ∨ charset = utf8Name) →
      decodeWordsGo fuel (utf8Name, 81, chunksRender g)
          (joinWords ((g :: gss).map fun x => renderWord (chunksRender x))) charset =
        .ok ((((g :: gss).map fun x => x.flatten).flatten), [], utf8Name) := by
  intro gss
  induction gss with
  | nil =>
    intro fuel g charset hfuel hx hcs
    obtain ⟨hgne, hgb⟩ := hx g (List.mem_cons_self _ _)
    cases fuel with
    | zero => omega
    | succ fl =>
      have hqd : qDecode (chunksRender g) = .ok g.flatten := by
        rw [chunksRender_eq]
        exact qDecode_flatMap_writeQ hgb
      have hdec : decodeOneWord 81 (chunksRender g) = some g.flatten := by
        rw [decodeOneWord, if_neg (by decide), if_pos (by decide), hqd]
      have hjw : joinWords (([g].map fun x => renderWord (chunksRender x))) =
          renderWord (chunksRender g) := rfl
      rw [hjw, decodeWordsGo]
      simp only [wordBytes_utf8Q, hdec]
      rw [if_neg (by rcases hcs with rfl | rfl <;> simp)]
      have hdrop : (renderWord (chunksRender g)).drop (renderWord (chunksRender g)).length =
          ([] : List Nat) := List.drop_length _
      simp only [hdrop]
      have hws : wsLen ([] : List Nat) = 0 := rfl
      rw [hws, if_pos rfl]
      have hcs2 : (if charset = [] then utf8Name else charset) = utf8Name := by
        rcases hcs with rfl | rfl <;> simp
      rw [hcs2]
      simp
  | cons g2 gss ih =>
    intro fuel g charset hfuel hx hcs
    obtain ⟨hgne, hgb⟩ := hx g (List.mem_cons_self _ _)
    obtain ⟨hg2ne, hg2b⟩ := hx g2 (List.mem_cons_of_mem _ (List.mem_cons_self _ _))
    cases fuel with
    | zero => simp at hfuel
    | succ fl =>
      have hqd : qDecode (chunksRender g) = .ok g.flatten := by
        rw [chunksRender_eq]
        exact qDecode_flatMap_writeQ hgb
      have hdec : decodeOneWord 81 (chunksRender g) = some g.flatten := by
        rw [decodeOneWord, if_neg (by decide), if_pos (by decide), hqd]
      rw [List.map_cons, List.map_cons, joinWords_two, decodeWordsGo]
      simp only [wordBytes_utf8Q, hdec]
      rw [if_neg (by rcases hcs with rfl | rfl <;> simp)]
      have hdrop : ((renderWord (chunksRender g) ++ [13, 10, 32]) ++
            joinWords (renderWord (chunksRender g2) :: gss.map fun x =>
              renderWord (chunksRender x))).drop (renderWord (chunksRender g)).length =
          [13, 10, 32] ++ joinWords (renderWord (chunksRender g2) :: gss.map fun x =>
            renderWord (chunksRender x)) := by
        rw [List.append_assoc, List.drop_left]
      simp only [hdrop]
      obtain ⟨t, hjt⟩ := joinWords_cons (renderWord (chunksRender g2))
        (gss.map fun x => renderWord (chunksRender x))
      have hjhead : joinWords (renderWord (chunksRender g2) :: gss.map fun x =>
          renderWord (chunksRender x)) = 61 :: (63 :: (utf8Name ++
            (63 :: 81 :: 63 :: (chunksRender g2 ++ (63 :: 61 :: t))))) := by
        rw [hjt, renderWord_append_head]
      have hws : wsLen ([13, 10, 32] ++ joinWords (renderWord (chunksRender g2) ::
          gss.map fun x => renderWord (chunksRender x))) = 3 := by
        rw [hjhead]
        exact wsLen_crlfsp _
      rw [hws, if_neg (by omega)]
      have hdrop3 : ([13, 10, 32] ++ joinWords (renderWord (chunksRender g2) ::
          gss.map fun x => renderWord (chunksRender x))).drop 3 =
          joinWords (renderWord (chunksRender g2) :: gss.map fun x =>
            renderWord (chunksRender x)) := by
        rw [show (3 : Nat) = ([13, 10, 32] : List Nat).length from rfl, List.drop_left]
      rw [hdrop3]
      have h63 : ∀ x ∈ chunksRender g2, x ≠ 63 := by
        rw [chunksRender_eq]
        intro x hxm
        obtain ⟨a, -, ha⟩ := List.mem_flatMap.mp hxm
        exact writeQ_ne63 ha
      have hfw : findWord (joinWords (renderWord (chunksRender g2) ::
          gss.map fun x => renderWord (chunksRender x))) =
          some (utf8Name, 81, chunksRender g2) := by
        rw [hjt]
        exact findWord_renderWord _ hg2ne h63 t
      rw [hfw]
      dsimp only
      have hcs2 : (if charset = [] then utf8Name else charset) = utf8Name := by
        rcases hcs with rfl | rfl <;> simp
      rw [hcs2]
      have hrec := ih fl g2 utf8Name (by simp only [List.length_cons] at hfuel; omega)
        (fun x hm => hx x (List.mem_cons_of_mem _ hm)) (Or.inr rfl)
      rw [List.map_cons] at hrec
      rw [hrec]
      rfl

theorem length_pos_of_needsEncoding {s : List Nat} (h : needsEncoding s = true) :
    s ≠ [] := by
  intro hnil
  rw [hnil] at h
  simp [needsEncoding] at h

theorem qChunks_ne_nil {s : List Nat} (hs : s ≠ []) : qChunks s ≠ [] := by
  cases s with
  | nil => exact absurd rfl hs
  | cons b rest =>
    rw [qChunks]
    simp only [List.length_cons]
    rw [qChunksGo]
    by_cases hq : qSafe b = true
    · rw [if_pos hq]; simp
    · rw [if_neg hq]; simp

/-! ## Claim theorems -/

/-- C1, counterexample: the claim `Decode (Encode x) = x` fails at the
one-byte input `x = [0x0D]` (a bare carriage return): the decoder trims
the trailing CR and returns the empty byte string without error. -/
theorem c1_counterexample :
    DecodeString (Encode [13]) = .ok [] ∧ DecodeString (Encode [13]) ≠ .ok [13] := by
  decide

/-- C1, amended: for every byte sequence `x` in which each carriage
return is immediately followed by a line feed, quoted-printable `Decode`
applied to the output of `Encode` succeeds without error and returns
exactly `x`.  (A bare CR at a line end is trimmed by the decoder, so the
unrestricted claim fails; see the counterexample.) -/
theorem c1_decode_encode_roundtrip (x : List Nat) (hb : ∀ b ∈ x, b < 256)
    (hcr : crSafe x = true) : DecodeString (Encode x) = .ok x := by
  unfold DecodeString
  exact decode_Encode_aux (Encode x).length x (Encode_length_ge x) hb hcr

/-- C1, witness: the round trip at a concrete input mixing a visible
character, trailing whitespace before a CRLF, an `'='`, a NUL and a high
byte. -/
theorem c1_witness :
    DecodeString (Encode [97, 32, 13, 10, 61, 0, 200]) = .ok [97, 32, 13, 10, 61, 0, 200] :=
  c1_decode_encode_roundtrip [97, 32, 13, 10, 61, 0, 200] (by decide) (by decide)

/-- C2, counterexample: quoted-printable-encoding the body of 79 `'0'`
characters plus CRLF through the encoder and `qpLineWriter` produces an
output whose first line between CRLF markers  is the 78 `'0'`s plus the
soft-break `'='`, i.e. 79 visible characters, exceeding 78. -/
theorem c2_counterexample :
    (qpBodyPipeline (List.replicate 79 48 ++ [13, 10])).map
      (fun out => (crlfSplit out).any fun line => decide (78 < line.length)) = some true := by
  decide

/-- C2, amended: the line-bounded writers keep every completed output
line (measured between LF markers, a trailing CR not being visible)
within a bound, and the running column counter resets after each emitted
newline: for `qpLineWriter.Write` starting at column at most 77, every
completed line is at most 79 visible characters (up to 78 content bytes
plus the soft-break `'='`), the reported column majorises the true output
column and stays at most 77; for `base64LineWriter.Write` on
newline-free input starting at column at most 78, every completed line
is at most 78 visible characters and the reported column majorises the
true output column and stays at most 78. -/
theorem c2_writer_line_bounds :
    (∀ fuel lineLen p out n ll2, lineLen ≤ 77 →
      qpWriteGo fuel lineLen p = some (out, n, ll2) →
      linesOK 79 lineLen (lfSplit out) = true ∧
      colAfter lineLen (lfSplit out) ≤ ll2 ∧ ll2 ≤ 77) ∧
    (∀ fuel lineLen p out n ll2, lineLen ≤ 78 → 10 ∉ p → 13 ∉ p →
      b64WriteGo fuel lineLen p = some (out, n, ll2) →
      linesOK 78 lineLen (lfSplit out) = true ∧
      colAfter lineLen (lfSplit out) ≤ ll2 ∧ ll2 ≤ 78) :=
  ⟨fun fuel => qpWriteGo_linesOK fuel, fun fuel => b64WriteGo_linesOK fuel⟩

theorem c2_witness :
    (linesOK 79 0 (lfSplit [65, 66]) = true ∧
      colAfter 0 (lfSplit [65, 66]) ≤ 2 ∧ 2 ≤ 77) ∧
    (linesOK 78 0 (lfSplit [67, 68, 69]) = true ∧
      colAfter 0 (lfSplit [67, 68, 69]) ≤ 3 ∧ 3 ≤ 78) :=
  ⟨c2_writer_line_bounds.1 5 0 [65, 66] [65, 66] 2 2 (by decide) (by decide),
   c2_writer_line_bounds.2 5 0 [67, 68, 69] [67, 68, 69] 3 3 (by decide) (by decide)
     (by decide) (by decide)⟩

/-- C3, counterexample: for the header consisting of the byte `0xC3`
followed by 21 UTF-8 continuation bytes `0x80` (a string that requires
encoding), `getRuneSize` groups all 22 bytes into one "rune", whose Q
encoding is 66 bytes long; the standard encoder emits it as a single
encoded word of total length 78 > 75 (after an empty word produced by
the overflowing split). -/
theorem c3_counterexample :
    needsEncoding (195 :: List.replicate 21 128) = true ∧
    ((qWords (195 :: List.replicate 21 128)).map
        (fun p => (renderWord p).length)).any (fun l => decide (75 < l)) = true := by
  decide

/-- C3, amended: when every rune group of the input has at most 4 bytes
(as is the case for all valid UTF-8), every encoded word emitted by the
standard UTF-8 header encoder — in the Q as well as in the B variant —
has total length at most 75 bytes, and the sequence of word payloads is
the rendering of a partition of the rune groups, so no group (hence no
UTF-8 code point) is split across a fold boundary between adjacent
encoded words. -/
theorem c3_encoded_word_bounds (s : List Nat)
    (hq : ∀ ch ∈ qChunks s, ch.length ≤ 4)
    (hbc : ∀ ch ∈ bChunks s, ch.length ≤ 4) :
    ((∀ p ∈ qWords s, (renderWord p).length ≤ 75) ∧
      ∃ gs : List (List (List Nat)), gs.flatten = qChunks s ∧
        qWords s = gs.map chunksRender) ∧
    ((∀ p ∈ bWords s, (renderWordB p).length ≤ 75) ∧
      ∃ gs : List (List (List Nat)), gs.flatten = bChunks s ∧
        bWords s = gs.map (fun g => b64Encode g.flatten)) := by
  constructor
  · have hch : ∀ ch ∈ qChunks s,
        (chunkRender ch).length = chunkEncLen ch ∧ chunkEncLen ch ≤ 12 := by
      intro ch hm
      obtain ⟨hr, hpos⟩ := qChunksGo_render s.length s ch hm
      refine ⟨hr, ?_⟩
      rw [chunkEncLen]
      by_cases hs : qSafe (ch.headD 0) = true
      · rw [if_pos hs]; omega
      · rw [if_neg hs]
        have := hq ch hm
        omega
    obtain ⟨hlen, g, gs, hflat, heq⟩ :=
      qSplitGo_spec (qChunks s) 10 [] hch (by omega) (by simp)
    constructor
    · intro p hp
      have hb := hlen p hp
      have h75 : (renderWord p).length = 12 + p.length := by
        simp [renderWord, qOpen]
        omega
      omega
    · refine ⟨g :: gs, by simp [hflat], ?_⟩
      rw [qWords, heq]
      simp
  · by_cases hfit : encodedLen s.length ≤ maxEncodedWordLen - 10 - 2
    · constructor
      · intro p hp
        rw [bWords, if_pos hfit] at hp
        simp only [List.mem_singleton] at hp
        subst hp
        have hlen : (renderWordB (b64Encode s)).length = 12 + encodedLen s.length := by
          simp [renderWordB, bOpen, b64Encode_length]
          omega
        unfold maxEncodedWordLen at hfit
        omega
      · refine ⟨[bChunks s], by simp, ?_⟩
        rw [bWords, if_pos hfit]
        have hfl : (bChunks s).flatten = s := bChunksGo_flatten s.length s (le_refl _)
        simp [hfl]
    · obtain ⟨hlen, g, gs, hflat, heq⟩ :=
        bRuns_spec (bChunks s) 0 [] hbc rfl (by unfold encodedLen; omega)
      constructor
      · intro p hp
        rw [bWords, if_neg hfit] at hp
        simp only [List.mem_map] at hp
        obtain ⟨r, hr, rfl⟩ := hp
        have hb := hlen r hr
        have hplen : (renderWordB (b64Encode r)).length = 12 + encodedLen r.length := by
          simp [renderWordB, bOpen, b64Encode_length]
          omega
        omega
      · refine ⟨g :: gs, by simp [hflat], ?_⟩
        rw [bWords, if_neg hfit, heq]
        simp

theorem c3_witness :
    ((∀ p ∈ qWords [83, 195, 163, 111, 32, 80, 97, 117, 108, 111],
        (renderWord p).length ≤ 75) ∧
      ∃ gs : List (List (List Nat)),
        gs.flatten = qChunks [83, 195, 163, 111, 32, 80, 97, 117, 108, 111] ∧
        qWords [83, 195, 163, 111, 32, 80, 97, 117, 108, 111] = gs.map chunksRender) ∧
    ((∀ p ∈ bWords [83, 195, 163, 111, 32, 80, 97, 117, 108, 111],
        (renderWordB p).length ≤ 75) ∧
      ∃ gs : List (List (List Nat)),
        gs.flatten = bChunks [83, 195, 163, 111, 32, 80, 97, 117, 108, 111] ∧
        bWords [83, 195, 163, 111, 32, 80, 97, 117, 108, 111] =
          gs.map (fun g => b64Encode g.flatten)) :=
  c3_encoded_word_bounds [83, 195, 163, 111, 32, 80, 97, 117, 108, 111]
    (by decide) (by decide)

/-- C5, counterexample: for the byte `0xC3` followed by 21 continuation
bytes `0x80` (a string requiring encoding, but not valid UTF-8) the
encoder emits an encoded word with an empty payload, which the decoder's
regexp (`[^?]+` requires a nonempty payload) does not recognise; the
word is left verbatim and the round trip fails. -/
theorem c5_counterexample :
    needsEncoding (195 :: List.replicate 21 128) = true ∧
    (DecodeHeader (EncodeHeader (195 :: List.replicate 21 128))).map Prod.fst ≠
      .ok (195 :: List.replicate 21 128) := by decide

/-- C5, amended: for every byte string that requires encoding, whose
rune groups have at most 4 bytes each (as all valid UTF-8 does), and
whose bytes are bytes (`< 256`), decoding the standard UTF-8 Q encoder's
output recovers exactly the original string, with charset `"UTF-8"` and
no error. -/
theorem c5_header_roundtrip (s : List Nat)
    (hne : needsEncoding s = true) (hb : ∀ b ∈ s, b < 256)
    (hq : ∀ ch ∈ qChunks s, ch.length ≤ 4) :
    DecodeHeader (EncodeHeader s) = .ok (s, utf8Name) := by
  have hch : ∀ ch ∈ qChunks s,
      (chunkRender ch).length = chunkEncLen ch ∧ 1 ≤ chunkEncLen ch ∧ chunkEncLen ch ≤ 12 := by
    intro ch hm
    obtain ⟨hr, hpos⟩ := qChunksGo_render s.length s ch hm
    refine ⟨hr, ?_, ?_⟩
    · rw [chunkEncLen]
      by_cases hs : qSafe (ch.headD 0) = true
      · rw [if_pos hs]
      · rw [if_neg hs]; omega
    · rw [chunkEncLen]
      by_cases hs : qSafe (ch.headD 0) = true
      · rw [if_pos hs]; omega
      · rw [if_neg hs]
        have := hq ch hm
        omega
  obtain ⟨hlen, g, gs, hflat, heq⟩ :=
    qSplitGo_spec (qChunks s) 10 [] (fun ch hm => ⟨(hch ch hm).1, (hch ch hm).2.2⟩)
      (by omega) (by simp)
  have hqw : qWords s = (g :: gs).map chunksRender := by
    rw [qWords, heq]
    simp
  have hnon : ∀ p ∈ qWords s, p ≠ [] :=
    qWords_ne_nil s hch (qChunks_ne_nil (length_pos_of_needsEncoding hne))
  have hqcf : (qChunks s).flatten = s := qChunksGo_flatten s.length s (le_refl _)
  have hx : ∀ x ∈ g :: gs, chunksRender x ≠ [] ∧ ∀ b ∈ x.flatten, b < 256 := by
    intro x hm
    constructor
    · apply hnon
      rw [hqw]
      exact List.mem_map_of_mem _ hm
    · intro b hbm
      apply hb
      obtain ⟨ch, hch1, hch2⟩ := List.mem_flatten.mp hbm
      have hchmem : ch ∈ qChunks s := by
        have hmf : ch ∈ (g :: gs).flatten := List.mem_flatten.mpr ⟨x, hm, hch1⟩
        rw [List.flatten_cons, hflat] at hmf
        exact hmf
      have hbf : b ∈ (qChunks s).flatten := List.mem_flatten.mpr ⟨ch, hchmem, hch2⟩
      rwa [hqcf] at hbf
  have hT : ((g :: gs).map fun x => x.flatten).flatten = s := by
    rw [flatten_map_flatten, List.flatten_cons, hflat, hqcf]
  have hE : EncodeHeader s = joinWords ((g :: gs).map fun x => renderWord (chunksRender x)) := by
    rw [EncodeHeader, if_pos hne, hqw, List.map_map]
    rfl
  obtain ⟨t, hjt⟩ := joinWords_cons (renderWord (chunksRender g))
    (gs.map fun x => renderWord (chunksRender x))
  have hmapc : ((g :: gs).map fun x => renderWord (chunksRender x)) =
      renderWord (chunksRender g) :: gs.map (fun x => renderWord (chunksRender x)) :=
    List.map_cons _ _ _
  have hwords1 : ∀ w ∈ (g :: gs).map fun x => renderWord (chunksRender x), 1 ≤ w.length := by
    intro w hw
    obtain ⟨x, -, rfl⟩ := List.mem_map.mp hw
    simp [renderWord, qOpen]
  have hF : gs.length <
      (joinWords ((g :: gs).map fun x => renderWord (chunksRender x))).length := by
    have hge := joinWords_length_ge _ hwords1
    simp only [List.length_map, List.length_cons] at hge
    omega
  have hW := decodeWordsGo_groups gs
    (joinWords ((g :: gs).map fun x => renderWord (chunksRender x))).length g [] hF hx
    (Or.inl rfl)
  have h63 : ∀ x ∈ chunksRender g, x ≠ 63 := by
    rw [chunksRender_eq]
    intro x hxm
    obtain ⟨a, -, ha⟩ := List.mem_flatMap.mp hxm
    exact writeQ_ne63 ha
  have hgne : chunksRender g ≠ [] := (hx g (List.mem_cons_self _ _)).1
  have hfw : findWord (joinWords ((g :: gs).map fun x => renderWord (chunksRender x))) =
      some (utf8Name, 81, chunksRender g) := by
    rw [hmapc, hjt]
    exact findWord_renderWord _ hgne h63 t
  rw [DecodeHeader, hE]
  rw [hmapc, hjt, renderWord_append_head] at hW hfw ⊢
  rw [List.length_cons, decodeHeaderGo]
  rw [List.takeWhile_cons_of_neg (by decide), List.dropWhile_cons_of_neg (by decide)]
  dsimp only
  rw [hfw]
  dsimp only
  rw [hW]
  dsimp only
  rw [decodeHeaderGo_nil]
  rw [hT]
  simp [Except.map]

theorem c5_witness :
    DecodeHeader (EncodeHeader [83, 195, 163, 111, 32, 80, 97, 117, 108, 111]) =
      .ok ([83, 195, 163, 111, 32, 80, 97, 117, 108, 111], utf8Name) :=
  c5_header_roundtrip [83, 195, 163, 111, 32, 80, 97, 117, 108, 111]
    (by decide) (by decide) (by decide)

/-- C4, counterexample: an `'='` with zero following bytes at the end of
the input is treated as a soft line break and decodes successfully, not
as an `UnexpectedEnd` error ("fewer than two following bytes" does not
hold as stated). -/
theorem c4_counterexample :
    DecodeString [61] = .ok [] ∧ DecodeString [65, 61] = .ok [65] := by decide

/-- C4, amended: `Decode` aborts at the first bad byte and classifies
errors as follows: an `'='` followed by an invalid (not uppercase) hex
digit is a bad-hex error (so `"=ZZ"` fails while `"Caf=C3=A9"` decodes to
the UTF-8 bytes of "Café"); an `'='` followed by exactly one byte that is
not whitespace or a newline at the end of the input is an UnexpectedEnd
error; and any byte outside the visible-ASCII/whitespace/newline set is an
invalid-byte error. -/
theorem c4_decode_error_classification :
    DecodeString [61, 90, 90] = .error (.invalidHex 90) ∧
    DecodeString [67, 97, 102, 61, 67, 51, 61, 65, 57] = .ok [67, 97, 102, 195, 169] ∧
    (∀ b : Nat, b < 256 → trimmable b = false → isUpperHex b = false →
      DecodeString [61, b, b] = .error (.invalidHex b)) ∧
    (∀ b : Nat, b < 256 → trimmable b = false →
      DecodeString [61, b] = .error .unexpectedEnd) ∧
    (∀ b : Nat, b < 256 → isPassByte b = false →
      DecodeString [b] = .error (.invalidByte b)) := by
  refine ⟨by decide, by decide, ?_, ?_, ?_⟩ <;> decide

/-- C4, witness: the amended classification applied at the concrete byte
`'Z' = 90`. -/
theorem c4_witness : DecodeString [61, 90, 90] = .error (.invalidHex 90) :=
  c4_decode_error_classification.2.2.1 90 (by decide) (by decide) (by decide)

/-- C6: the code is wrong and the claim (writers never fail on well-formed
escaped input) reflects the documented intent.  On the 78-byte well-formed
escaped input `"=00"` repeated 26 times (exactly what the package's own
encoder produces for a body of 26 NUL bytes) with a fresh writer,
`qpLineWriter.Write` evaluates `p[:80]` on a 78-byte slice: an
out-of-range access, modelled as `none`. -/
theorem c6_qp_writer_out_of_range :
    Encode (List.replicate 26 0) = (List.replicate 26 ([61, 48, 48] : List Nat)).flatten ∧
    qpWrite 0 (Encode (List.replicate 26 0)) = none := by decide

/-- C9: encoding 79 `'0'` characters followed by CRLF through the
quoted-printable encoder and the `qpLineWriter` yields 78 `'0'`s, a soft
break `"=\r\n"`, then the remaining `'0'` and CRLF; all 81 input bytes are
reported as consumed and the writer ends at column 3. -/
theorem c9_soft_break_scenario :
    qpWrite 0 (Encode (List.replicate 79 48 ++ [13, 10])) =
      some (List.replicate 78 48 ++ [61, 13, 10] ++ [48, 13, 10], 81, 3) := by decide

/-- C10: `fromHex` accepts only uppercase hex digits, so a lowercase
escape such as `"=c3"` makes both `Decode` and `qDecode` fail with the
invalid-hex error, while the uppercase `"=C3"` decodes to byte 0xC3. -/
theorem c10_lowercase_hex_rejected :
    (∀ b : Nat, 97 ≤ b → b ≤ 102 → fromHex b = .error (.invalidHex b)) ∧
    DecodeString [61, 99, 51] = .error (.invalidHex 99) ∧
    DecodeString [61, 67, 51] = .ok [195] ∧
    qDecode [61, 99, 51] = .error (.invalidHex 99) ∧
    qDecode [61, 67, 51] = .ok [195] := by
  refine ⟨?_, by decide, by decide, by decide, by decide⟩
  intro b h1 h2
  have hn1 : ¬(48 ≤ b ∧ b ≤ 57) := by omega
  have hn2 : ¬(65 ≤ b ∧ b ≤ 70) := by omega
  simp only [fromHex]
  rw [if_neg (by simpa using hn1), if_neg (by simpa using hn2)]

/-- C10, witness: the general lowercase-hex rejection applied at `'c' = 99`. -/
theorem c10_witness : fromHex 99 = .error (.invalidHex 99) :=
  c10_lowercase_hex_rejected.1 99 (by decide) (by decide)

/-- C7: when the downstream writer accepts only a `k`-byte prefix of the
encoded buffer before erroring, the streaming encoder reports as consumed
exactly the number of input bytes whose complete encoded unit (a 1-byte
literal or a full 3-byte escape) was flushed: the recovery count equals
the number of whole units fitting in `k` bytes, those units fit in `k`
bytes, and (whenever input remains) one more unit would exceed `k`, so
a partially flushed escape is never counted. -/
theorem c7_short_write_accounting (src : List Nat) (k : Nat) :
    countConsumed ((Encode src).take k) = unitsWithin (encUnits src) k ∧
    (((encUnits src).take (unitsWithin (encUnits src) k)).flatten).length ≤ k ∧
    (unitsWithin (encUnits src) k < src.length →
      k < (((encUnits src).take (unitsWithin (encUnits src) k + 1)).flatten).length) := by
  refine ⟨?_, unitsWithin_flatten_le _ _, ?_⟩
  · rw [Encode_eq_join_encUnits]
    exact countConsumed_take_flatten _ (encUnits_shape src) k
  · intro hm
    refine unitsWithin_maximal _ k ?_ ?_
    · intro u hu
      rcases encUnits_shape src u hu with ⟨b, hb, _⟩ | ⟨g1, g2, hg⟩
      · simp [hb]
      · simp [hg]
    · rwa [encUnits_length]

/-- C7, witness: at the concrete input `[0, 1]` (both bytes escaped, 6
encoded bytes) with a 4-byte accepted prefix, the remaining-input
hypothesis holds and the next unit would indeed exceed the prefix. -/
theorem c7_witness :
    4 < (((encUnits [0, 1]).take (unitsWithin (encUnits [0, 1]) 4 + 1)).flatten).length :=
  (c7_short_write_accounting [0, 1] 4).2.2 (by decide)

/-- C8: `Export` opens a `multipart/mixed` envelope iff the message has at
least one part and at least one attachment, or more than one attachment;
it opens `multipart/alternative` iff it has more than one part; all
multipart opens precede every part and attachment write; and a message
with one plain-text part and two attachments is assembled as mixed with
two base64-encoded attachment parts and no alternative wrapper. -/
theorem c8_multipart_envelope :
    (∀ msg : Message,
      (ExportEv.openMultipart mixedKind ∈ msg.exportTrace ↔
        (msg.parts ≠ [] ∧ msg.attachments ≠ []) ∨ 1 < msg.attachments.length) ∧
      (ExportEv.openMultipart altKind ∈ msg.exportTrace ↔ 1 < msg.parts.length) ∧
      (msg.exportTrace.dropWhile ExportEv.isOpen).all (fun e => !ExportEv.isOpen e) = true) ∧
    demoMessage.exportTrace =
      [.openMultipart mixedKind,
       .writePart [116, 101, 120, 116] .quotedPrintable,
       .writeAttachment [97] .base64,
       .writeAttachment [98] .base64,
       .closeMultipart] := by
  constructor
  · intro msg
    have hmix : msg.isMixed = true ↔
        ((msg.parts ≠ [] ∧ msg.attachments ≠ []) ∨ 1 < msg.attachments.length) := by
      simp [Message.isMixed, List.length_pos]
    have halt : msg.isAlternative = true ↔ 1 < msg.parts.length := by
      simp [Message.isAlternative]
    refine ⟨?_, ?_, ?_⟩
    · rw [← hmix]
      cases hm : msg.isMixed <;> cases ha : msg.isAlternative <;>
        simp [Message.exportTrace, hm, ha, mixedKind, altKind]
    · rw [← halt]
      cases hm : msg.isMixed <;> cases ha : msg.isAlternative <;>
        simp [Message.exportTrace, hm, ha, mixedKind, altKind]
    · have hopen1 : ∀ x ∈ (if msg.isMixed then [ExportEv.openMultipart mixedKind] else []),
          ExportEv.isOpen x = true := by
        intro x hx
        by_cases hm : msg.isMixed <;> simp [hm] at hx
        rw [hx]; rfl
      have hopen2 : ∀ x ∈ (if msg.isAlternative then [ExportEv.openMultipart altKind] else []),
          ExportEv.isOpen x = true := by
        intro x hx
        by_cases ha : msg.isAlternative <;> simp [ha] at hx
        rw [hx]; rfl
      have hrest : ∀ e ∈ (msg.parts.map fun p => ExportEv.writePart p.contentType
            (if msg.encoding = .base64 then .base64 else .quotedPrintable)) ++
          ((if msg.isAlternative then [ExportEv.closeMultipart] else []) ++
          ((msg.attachments.map fun a => ExportEv.writeAttachment a.name .base64) ++
          (if msg.isMixed then [ExportEv.closeMultipart] else []))),
          ExportEv.isOpen e = false := by
        intro e he
        simp only [List.mem_append, List.mem_map] at he
        rcases he with ⟨p, _, hp⟩ | hc | ⟨a, _, ha2⟩ | hc2
        · rw [← hp]; rfl
        · by_cases ha : msg.isAlternative <;> simp [ha] at hc
          rw [hc]; rfl
        · rw [← ha2]; rfl
        · by_cases hm : msg.isMixed <;> simp [hm] at hc2
          rw [hc2]; rfl
      have hshape : msg.exportTrace.dropWhile ExportEv.isOpen =
          ((msg.parts.map fun p => ExportEv.writePart p.contentType
            (if msg.encoding = .base64 then .base64 else .quotedPrintable)) ++
          ((if msg.isAlternative then [ExportEv.closeMultipart] else []) ++
          ((msg.attachments.map fun a => ExportEv.writeAttachment a.name .base64) ++
          (if msg.isMixed then [ExportEv.closeMultipart] else [])))).dropWhile
            ExportEv.isOpen := by
        unfold Message.exportTrace
        simp only [List.append_assoc]
        rw [dropWhile_append_all _ hopen1, dropWhile_append_all _ hopen2]
      rw [hshape]
      exact dropWhile_all_not _ hrest
  · decide

end Mail
